import Mathlib

/-!
Shallow embedding of the changelog aggregation / ordering / traversal engine
of the `unclog` tool (informalsystems/unclog), together with theorems checking
the natural-language specification against the code.

Rust strings are modelled as Lean `String`; the string operations used by the
code (`split('\n')`, `trim`, `starts_with`, `trim_end_matches`) are modelled
as explicit functions over the underlying character list, with Rust's
whitespace predicate restricted to the ASCII whitespace characters that occur
in changelog data.  Machine integers (`u64`, `u8`) are modelled as `Nat` with
explicit bounds where overflow matters.  Fallible Rust code returning
`Result` is modelled with `Except`.
-/

namespace Unclog

/-! ## String helpers (models of the Rust `str` operations used) -/

/-- Model of Rust `char::is_whitespace` restricted to the ASCII whitespace
characters (space, tab, newline, carriage return). -/
def isWhitespaceChar (c : Char) : Bool :=
  c = ' ' || c = '\t' || c = '\n' || c = '\r'

/-- Model of Rust `str::trim` (both ends) over a character list. -/
def trimChars (cs : List Char) : List Char :=
  ((cs.dropWhile isWhitespaceChar).reverse.dropWhile isWhitespaceChar).reverse

/-- Model of Rust `str::trim`. -/
def rsTrim (s : String) : String :=
  String.mk (trimChars s.data)

/-- Model of Rust `str::split(sep)` over a character list: splits on every
occurrence of `sep`, keeping empty pieces (as Rust does). -/
def splitChar (sep : Char) : List Char → List (List Char)
  | [] => [[]]
  | c :: cs =>
    match splitChar sep cs with
    | [] => [[]]
    | piece :: rest =>
      if c = sep then [] :: piece :: rest else (c :: piece) :: rest

/-- Model of Rust `str::split(sep)` producing strings. -/
def rsSplit (sep : Char) (s : String) : List String :=
  (splitChar sep s.data).map String.mk

/-- Model of Rust `str::trim_end_matches(|c| c == '\n' || c == '\r')`
(`trim_newlines` in `parsing_utils.rs`). -/
def trim_newlines (s : String) : String :=
  String.mk ((s.data.reverse.dropWhile (fun c => c = '\n' || c = '\r')).reverse)

/-- Model of Rust `Vec<String>::join(sep)` / `[&str]::join`. -/
def joinStrs (sep : String) : List String → String
  | [] => ""
  | [x] => x
  | x :: y :: rest => x ++ sep ++ joinStrs sep (y :: rest)

/-- Model of Rust `str::is_empty`. -/
def rsIsEmpty (s : String) : Bool :=
  s.data.isEmpty

/-! ## Data model (`src/changelog/...`) -/

/-- Model of `Entry` (`entry.rs`): one change note.  The entry id is a `u64`
in Rust, modelled as `Nat` (the loader only produces values below `2 ^ 64`,
see `u64FromStr`). -/
structure Entry where
  id : Nat
  details : String
deriving DecidableEq, Repr

/-- Model of `ComponentSection` (`component_section.rs`). -/
structure ComponentSection where
  id : String
  name : String
  maybe_path : Option String
  entries : List Entry
deriving DecidableEq, Repr

/-- `ComponentSection::is_empty`. -/
def ComponentSection.is_empty (s : ComponentSection) : Bool :=
  s.entries.isEmpty

/-- Model of `ChangeSetSection` (`change_set_section.rs`). -/
structure ChangeSetSection where
  id : String
  title : String
  entries : List Entry
  component_sections : List ComponentSection
deriving DecidableEq, Repr

/-- `ChangeSetSection::is_empty`. -/
def ChangeSetSection.is_empty (s : ChangeSetSection) : Bool :=
  s.entries.isEmpty && s.component_sections.isEmpty

/-- Model of `ChangeSet` (`change_set.rs`). -/
structure ChangeSet where
  maybe_summary : Option String
  sections : List ChangeSetSection
deriving DecidableEq, Repr

/-- `ChangeSet::are_sections_empty`. -/
def ChangeSet.are_sections_empty (cs : ChangeSet) : Bool :=
  cs.sections.all ChangeSetSection.is_empty

/-- `ChangeSet::is_empty`. -/
def ChangeSet.is_empty (cs : ChangeSet) : Bool :=
  (cs.maybe_summary.elim true rsIsEmpty) && cs.are_sections_empty

/-- A semantic-version pre-release identifier (numeric or alphanumeric),
as in the `semver` crate. -/
inductive PreId where
  | num (n : Nat)
  | alphanum (s : String)
deriving DecidableEq, Repr

/-- Model of `semver::Version` (build metadata is not modelled; no claim
depends on it). -/
structure Version where
  major : Nat
  minor : Nat
  patch : Nat
  pre : List PreId
deriving DecidableEq, Repr

/-- Three-way comparison on `Nat` (model of `Ord::cmp` for unsigned ints). -/
def natCmp (a b : Nat) : Ordering :=
  if a < b then .lt else if b < a then .gt else .eq

/-- Three-way comparison on `Char` (by code point, as Rust compares chars). -/
def charCmp (a b : Char) : Ordering :=
  natCmp a.toNat b.toNat

/-- Lexicographic three-way comparison on character lists (model of Rust
`str` ordering, which is bytewise; for the ASCII strings occurring in the
claims bytewise and codepoint-wise lexicographic order agree). -/
def charsCmp : List Char → List Char → Ordering
  | [], [] => .eq
  | [], _ :: _ => .lt
  | _ :: _, [] => .gt
  | a :: as, b :: bs =>
    match charCmp a b with
    | .eq => charsCmp as bs
    | o => o

/-- Model of Rust `str` ordering. -/
def strCmp (a b : String) : Ordering :=
  charsCmp a.data b.data

/-- Comparison of pre-release identifiers (semver precedence): numeric
identifiers compare numerically and are smaller than alphanumeric ones. -/
def PreId.cmp : PreId → PreId → Ordering
  | .num a, .num b => natCmp a b
  | .num _, .alphanum _ => .lt
  | .alphanum _, .num _ => .gt
  | .alphanum a, .alphanum b => strCmp a b

/-- Lexicographic comparison of pre-release identifier lists (a shorter list
is smaller when it is a prefix of the longer one). -/
def preListCmp : List PreId → List PreId → Ordering
  | [], [] => .eq
  | [], _ :: _ => .lt
  | _ :: _, [] => .gt
  | a :: as, b :: bs =>
    match PreId.cmp a b with
    | .eq => preListCmp as bs
    | o => o

/-- Comparison of the pre-release components of two versions: a version
without pre-release identifiers has higher precedence than one with them. -/
def prePartCmp : List PreId → List PreId → Ordering
  | [], [] => .eq
  | [], _ :: _ => .gt
  | _ :: _, [] => .lt
  | a :: as, b :: bs => preListCmp (a :: as) (b :: bs)

/-- Model of `Ord::cmp` for `semver::Version`. -/
def Version.cmp (a b : Version) : Ordering :=
  match natCmp a.major b.major with
  | .eq =>
    match natCmp a.minor b.minor with
    | .eq =>
      match natCmp a.patch b.patch with
      | .eq => prePartCmp a.pre b.pre
      | o => o
    | o => o
  | o => o

/-- Model of `chrono::NaiveDate` (a calendar date). -/
structure NaiveDate where
  year : Int
  month : Nat
  day : Nat
deriving DecidableEq, Repr

/-- Three-way comparison on `Int`. -/
def intCmp (a b : Int) : Ordering :=
  if a < b then .lt else if b < a then .gt else .eq

/-- Model of `Ord::cmp` for `chrono::NaiveDate` (chronological order). -/
def NaiveDate.cmp (a b : NaiveDate) : Ordering :=
  match intCmp a.year b.year with
  | .eq =>
    match natCmp a.month b.month with
    | .eq => natCmp a.day b.day
    | o => o
  | o => o

/-- Model of `Ord::cmp` for `Option<NaiveDate>` (`None` is smallest, as in
Rust's derived `Ord` for `Option`). -/
def optDateCmp : Option NaiveDate → Option NaiveDate → Ordering
  | none, none => .eq
  | none, some _ => .lt
  | some _, none => .gt
  | some a, some b => NaiveDate.cmp a b

/-- Model of `Release` (`release.rs`). -/
structure Release where
  id : String
  version : Version
  maybe_date : Option NaiveDate
  changes : ChangeSet
deriving DecidableEq, Repr

/-- Model of `Changelog` (`changelog.rs`). -/
structure Changelog where
  maybe_unreleased : Option ChangeSet
  releases : List Release
  prologue : Option String
  epilogue : Option String
deriving DecidableEq, Repr

/-- `Changelog::is_empty`. -/
def Changelog.is_empty (c : Changelog) : Bool :=
  (c.maybe_unreleased.elim true ChangeSet.is_empty)
    && c.releases.all (fun r => r.changes.is_empty)
    && (c.prologue.elim true rsIsEmpty)
    && (c.epilogue.elim true rsIsEmpty)

/-! ## Configuration (`config.rs`), restricted to the fields the claims use -/

/-- Model of `BulletStyle`. -/
inductive BulletStyle where
  | asterisk
  | dash
deriving DecidableEq, Repr

/-- `Display` for `BulletStyle`. -/
def BulletStyle.toString : BulletStyle → String
  | .asterisk => "*"
  | .dash => "-"

/-- Model of `SortReleasesBy`. -/
inductive SortReleasesBy where
  | version
  | date
deriving DecidableEq, Repr

/-- Model of `SortEntriesBy`. -/
inductive SortEntriesBy where
  | id
  | entryText
deriving DecidableEq, Repr

/-- Model of `UnreleasedConfig`. -/
structure UnreleasedConfig where
  folder : String
  heading : String
deriving DecidableEq, Repr

/-- Model of `ChangeSetsConfig`. -/
structure ChangeSetsConfig where
  summary_filename : String
  entry_ext : String
deriving DecidableEq, Repr

/-- Model of `ChangeSetSectionsConfig`. -/
structure ChangeSetSectionsConfig where
  sort_entries_by : SortEntriesBy
deriving DecidableEq, Repr

/-- Model of `ComponentsConfig` (the component map is irrelevant to the
claims and omitted).  `entry_indent` is a `u8` in Rust, modelled as `Nat`. -/
structure ComponentsConfig where
  general_entries_title : String
  entry_indent : Nat
deriving DecidableEq, Repr

/-- Model of `Config`, restricted to the fields used by rendering, sorting
and traversal. -/
structure Config where
  heading : String
  bullet_style : BulletStyle
  empty_msg : String
  sort_releases_by : List SortReleasesBy
  unreleased : UnreleasedConfig
  change_sets : ChangeSetsConfig
  change_set_sections : ChangeSetSectionsConfig
  components : ComponentsConfig
deriving DecidableEq, Repr

/-! ## Render pipeline -/

/-- `change_set_section_title` (`change_set_section.rs`): hyphens become
spaces and the result is upper-cased (ASCII upper-casing; the section ids
occurring in changelogs are ASCII). -/
def change_set_section_title (s : String) : String :=
  String.mk (s.data.map (fun c => if c = '-' then ' ' else c.toUpper))

/-- Model of Rust `trimmed.starts_with(c)` for a single character. -/
def startsWithChar (s : String) (c : Char) : Bool :=
  match s.data with
  | [] => false
  | c0 :: _ => c0 = c

/-- A string of `n` spaces, built as in the source:
`(0..i).map(|_| " ").collect::<Vec<&str>>().join("")`. -/
def spacesJoin (n : Nat) : String :=
  joinStrs "" ((List.range n).map (fun _ => " "))

/-- `indent_bulleted_str` (`change_set_section.rs`): indent each line of a
(possibly multi-line) bulleted entry; lines whose trimmed form starts with a
bullet marker get `indent` spaces, all other lines get `overflow_indent`
spaces, each applied to the trimmed line. -/
def indent_bulleted_str (s : String) (indent overflow_indent : Nat) : List String :=
  (rsSplit '\n' s).map (fun line =>
    let line_trimmed := rsTrim line
    let i := if startsWithChar line_trimmed '*' || startsWithChar line_trimmed '-' then
        indent
      else
        overflow_indent
    spacesJoin i ++ line_trimmed)

/-- `indent_entries` (`change_set_section.rs`): an entry renders via
`Display` as its `details` text. -/
def indent_entries (entries : List Entry) (indent overflow_indent : Nat) : List String :=
  entries.flatMap (fun e => indent_bulleted_str e.details indent overflow_indent)

/-- `ComponentSection::render` (`component_section.rs`). -/
def ComponentSection.render (s : ComponentSection) (config : Config) : String :=
  let entries_lines := indent_entries s.entries config.components.entry_indent
    (config.components.entry_indent + 2)
  let name :=
    match s.maybe_path with
    | some path => "[" ++ s.name ++ "]" ++ "(" ++ path ++ ")"
    | none => s.name
  joinStrs "\n" ((config.bullet_style.toString ++ " " ++ name) :: entries_lines)

/-- `ChangeSetSection::render` (`change_set_section.rs`). -/
def ChangeSetSection.render (s : ChangeSetSection) (config : Config) : String :=
  let lines :=
    if s.component_sections.isEmpty then
      s.entries.map (fun e => e.details)
    else
      (if ¬s.entries.isEmpty then
        (config.bullet_style.toString ++ " " ++ config.components.general_entries_title)
          :: indent_entries s.entries config.components.entry_indent
            (config.components.entry_indent + 2)
      else []) ++ s.component_sections.map (fun ps => ps.render config)
  "### " ++ s.title ++ "\n\n" ++ joinStrs "\n" lines

/-- `ChangeSet::render` (`change_set.rs`): the optional summary paragraph
followed by each non-empty section's rendering, blank-line-joined. -/
def ChangeSet.render (cs : ChangeSet) (config : Config) : String :=
  let paragraphs :=
    (match cs.maybe_summary with
      | some summary => [summary]
      | none => []) ++
    (cs.sections.filter (fun s => !s.is_empty)).map (fun s => s.render config)
  joinStrs "\n\n" paragraphs

/-- `Release::render` (`release.rs`). -/
def Release.render (r : Release) (config : Config) : String :=
  joinStrs "\n\n" (("## " ++ r.id) ::
    (if !r.changes.is_empty then [r.changes.render config] else []))

/-- Model of `Error` (`error.rs`).  `std::io::Error` is modelled as an
abstract cause (`IoError`); note that the `Io` variant as declared in
`error.rs` wraps only the cause (`#[from] std::io::Error`), with no path.
`std::num::ParseIntError` is modelled by its kind. -/
structure IoError where
  kind : Nat
deriving DecidableEq, Repr

/-- The kinds of `std::num::ParseIntError` relevant to entry-id parsing. -/
inductive ParseIntErrorKind where
  | empty
  | invalidDigit
  | posOverflow
deriving DecidableEq, Repr

/-- The `unclog` error type (`error.rs`), restricted to the variants
reachable from the modelled operations. -/
inductive Error where
  | io (cause : IoError)
  | expectedDir (path : String)
  | cannotObtainName (s : String)
  | cannotExtractVersion (s : String)
  | invalidSemanticVersion
  | invalidEntryId (s : String)
  | invalidEntryNumber (e : ParseIntErrorKind)
  | noUnreleasedEntries
deriving DecidableEq, Repr

/-- Equality of `Except` values is decidable for decidable components. -/
instance {ε α : Type} [DecidableEq ε] [DecidableEq α] :
    DecidableEq (Except ε α) := fun a b =>
  match a, b with
  | .ok x, .ok y =>
    if h : x = y then .isTrue (by rw [h]) else .isFalse (by simp [h])
  | .error x, .error y =>
    if h : x = y then .isTrue (by rw [h]) else .isFalse (by simp [h])
  | .ok _, .error _ => .isFalse (by simp)
  | .error _, .ok _ => .isFalse (by simp)

/-- `Changelog::unreleased_paragraphs` (`changelog.rs`). -/
def Changelog.unreleased_paragraphs (cl : Changelog) (config : Config) :
    Except Error (List String) :=
  match cl.maybe_unreleased with
  | some unreleased =>
    if !unreleased.is_empty then
      .ok [config.unreleased.heading, unreleased.render config]
    else
      .error .noUnreleasedEntries
  | none => .error .noUnreleasedEntries

/-- `Changelog::render` (`changelog.rs`): the private work-horse behind
`render_all` / `render_released`. -/
def Changelog.render (cl : Changelog) (config : Config) (render_unreleased : Bool) :
    String :=
  let paragraphs :=
    config.heading ::
      (if cl.is_empty then
        [config.empty_msg]
      else
        (match cl.prologue with
          | some prologue => [prologue]
          | none => []) ++
        (if render_unreleased then
          match cl.unreleased_paragraphs config with
          | .ok unreleased_paragraphs => unreleased_paragraphs
          | .error _ => []
        else []) ++
        cl.releases.map (fun r => r.render config) ++
        (match cl.epilogue with
          | some epilogue => [epilogue]
          | none => []))
  joinStrs "\n\n" paragraphs ++ "\n"

/-- `Changelog::render_all`. -/
def Changelog.render_all (cl : Changelog) (config : Config) : String :=
  cl.render config true

/-- `Changelog::render_released`. -/
def Changelog.render_released (cl : Changelog) (config : Config) : String :=
  cl.render config false

/-- `Changelog::render_unreleased`. -/
def Changelog.render_unreleased (cl : Changelog) (config : Config) :
    Except Error String :=
  (cl.unreleased_paragraphs config).map (joinStrs "\n\n")

/-! ## Release sorting (`Changelog::read_from_dir`, `changelog.rs`) -/

/-- The comparator closure passed to `releases.sort_by` in
`Changelog::read_from_dir`: walk the configured criteria in order
(`continue` on a criterion that reports equality, `return` on the first one
that decides), falling back to version-descending. -/
def releaseCmp (criteria : List SortReleasesBy) (a b : Release) : Ordering :=
  match criteria with
  | [] => (Version.cmp a.version b.version).swap
  | .version :: rest =>
    if a.version = b.version then releaseCmp rest a b
    else (Version.cmp a.version b.version).swap
  | .date :: rest =>
    if a.maybe_date.isNone || b.maybe_date.isNone then releaseCmp rest a b
    else if a.maybe_date = b.maybe_date then releaseCmp rest a b
    else (optDateCmp a.maybe_date b.maybe_date).swap

/-- `releases.sort_by(...)`: Rust's `sort_by` is a stable sort by the given
comparator, modelled with a stable merge sort. -/
def sort_releases (criteria : List SortReleasesBy) (releases : List Release) :
    List Release :=
  releases.mergeSort (fun a b => releaseCmp criteria a b ≠ .gt)

/-- Specification-side comparator, following the words of the spec: each
criterion is evaluated in order as a descending comparison (a date criterion
with either side missing reports "equal"); the first criterion not reporting
"equal" decides; if all report "equal", fall back to semantic-version
descending. -/
def criterionCmpSpec (c : SortReleasesBy) (a b : Release) : Ordering :=
  match c with
  | .version => (Version.cmp a.version b.version).swap
  | .date =>
    match a.maybe_date, b.maybe_date with
    | some da, some db => (NaiveDate.cmp da db).swap
    | _, _ => .eq

/-- Specification-side release comparator (see `criterionCmpSpec`). -/
def releaseCmpSpec (criteria : List SortReleasesBy) (a b : Release) : Ordering :=
  match criteria.findSome? (fun c =>
      match criterionCmpSpec c a b with
      | .eq => none
      | o => some o) with
  | some o => o
  | none => (Version.cmp a.version b.version).swap

/-! ## Entry-id extraction (`entry.rs`) -/

/-- Model of `char::is_ascii_digit`. -/
def isAsciiDigit (c : Char) : Bool :=
  '0' ≤ c && c ≤ '9'

/-- The numeric value of a list of ASCII digits (most significant first). -/
def digitsVal (cs : List Char) : Nat :=
  cs.foldl (fun acc c => 10 * acc + (c.toNat - '0'.toNat)) 0

/-- Model of `u64::from_str` on the extracted digit slice: an empty slice is
a parse error of kind `empty`, a non-digit is `invalidDigit`, and a value
that does not fit in 64 bits is `posOverflow`. -/
def u64FromStr (cs : List Char) : Except ParseIntErrorKind Nat :=
  if cs.isEmpty then .error .empty
  else if ¬cs.all isAsciiDigit then .error .invalidDigit
  else if digitsVal cs < 2 ^ 64 then .ok (digitsVal cs)
  else .error .posOverflow

/-- `extract_entry_id` (`entry.rs`): `position` of the first non-digit char
(an all-digit string is `InvalidEntryId`), then `u64::from_str` on the
leading slice.  The byte slice `&s[..num_digits]` is safe and equal to the
first `num_digits` characters because all preceding characters are ASCII
digits (one byte each). -/
def extract_entry_id (s : String) : Except Error Nat :=
  match s.data.findIdx? (fun c => !isAsciiDigit c) with
  | none => .error (.invalidEntryId s)
  | some num_digits =>
    match u64FromStr (s.data.take num_digits) with
    | .ok n => .ok n
    | .error e => .error (.invalidEntryNumber e)

/-! ## Release-version extraction (`parsing_utils.rs`) -/

/-- The number of bytes of a character in UTF-8 (model of the encoding used
by Rust `String`). -/
def charUtf8Size (c : Char) : Nat :=
  if c.toNat < 0x80 then 1
  else if c.toNat < 0x800 then 2
  else if c.toNat < 0x10000 then 3
  else 4

/-- Model of the Rust byte-slice `&s[i..]` on a UTF-8 string: `none` when
byte index `i` is not on a character boundary or past the end (a panic in
Rust), otherwise the characters from byte offset `i` on. -/
def byteSuffixAt : List Char → Nat → Option (List Char)
  | cs, 0 => some cs
  | [], _ + 1 => none
  | c :: cs, n + 1 =>
    if charUtf8Size c ≤ n + 1 then byteSuffixAt cs (n + 1 - charUtf8Size c)
    else none

/-- The possible outcomes of a Rust function returning `Result`, with panics
made explicit. -/
inductive RustOutcome (α : Type) where
  | panics
  | err (e : Error)
  | ok (v : α)
deriving DecidableEq, Repr

/-- `extract_release_version` (`parsing_utils.rs`): the *character* position
of the first decimal digit is used as a *byte* index into the string
(`&s[version_start..]`), which panics when a multi-byte character makes that
byte index fall inside a character. -/
def extract_release_version (s : String) : RustOutcome String :=
  match s.data.findIdx? (fun c => '0' ≤ c && c ≤ '9') with
  | none => .err (.cannotExtractVersion s)
  | some version_start =>
    match byteSuffixAt s.data version_start with
    | none => .panics
    | some suffix => .ok (String.mk suffix)

/-! ## Directory reading (`fs_utils.rs`) -/

/-- Model of `std::fs::DirEntry`, reduced to what the filters inspect. -/
structure DirEntry where
  path : String
deriving DecidableEq, Repr

/-- One element of a `read_dir` iteration: a directory entry or an I/O
error. -/
inductive DirEntryResult where
  | ok (e : DirEntry)
  | err (e : IoError)
deriving DecidableEq, Repr

/-- An abstract filesystem for directory listing: maps a path to either the
listing of the directory or an I/O error. -/
def FsModel : Type :=
  String → Except IoError (List DirEntryResult)

/-- Model of `Iterator::collect::<Result<Vec<_>, _>>`: stop at the first
error. -/
def collectResults : List (Except Error String) → Except Error (List String)
  | [] => .ok []
  | .error e :: _ => .error e
  | .ok x :: rest =>
    match collectResults rest with
    | .ok xs => .ok (x :: xs)
    | .error e => .error e

/-- `read_and_filter_dir` (`fs_utils.rs`): `fs::read_dir(path)?` converts a
listing failure into `Error::Io(e)` via `#[from]`; each per-entry error is
wrapped as `Error::Io(e)` as well; surviving entries pass through the
filter. -/
def read_and_filter_dir (fs : FsModel) (path : String)
    (filter : DirEntry → Option (Except Error String)) :
    Except Error (List String) :=
  match fs path with
  | .error e => .error (.io e)
  | .ok entries =>
    collectResults (entries.filterMap (fun r =>
      match r with
      | .ok e => filter e
      | .err e => some (.error (.io e))))

/-! ## Entry paths (`entry_path.rs`)

In Rust the path types hold shared references into the changelog tree;
`==` on references compares the referenced *values*, so the derived
`PartialEq` of the path types is value equality of all recorded components.
The Lean model records the component values directly; structural equality of
the model coincides with the Rust `==`. -/

/-- Model of `ChangeSetComponentPath`. -/
inductive ChangeSetComponentPath where
  | general (entry : Entry)
  | component (cs : ComponentSection) (entry : Entry)
deriving DecidableEq, Repr

/-- `ChangeSetComponentPath::entry`. -/
def ChangeSetComponentPath.entry : ChangeSetComponentPath → Entry
  | .general e => e
  | .component _ e => e

/-- Model of `ChangeSetSectionPath`. -/
structure ChangeSetSectionPath where
  change_set_section : ChangeSetSection
  component_path : ChangeSetComponentPath
deriving DecidableEq, Repr

/-- `ChangeSetSectionPath::entry`. -/
def ChangeSetSectionPath.entry (p : ChangeSetSectionPath) : Entry :=
  p.component_path.entry

/-- Model of `EntryChangeSetPath`. -/
structure EntryChangeSetPath where
  change_set : ChangeSet
  section_path : ChangeSetSectionPath
deriving DecidableEq, Repr

/-- `EntryChangeSetPath::entry`. -/
def EntryChangeSetPath.entry (p : EntryChangeSetPath) : Entry :=
  p.section_path.entry

/-- Model of `EntryReleasePath`. -/
inductive EntryReleasePath where
  | unreleased (p : EntryChangeSetPath)
  | released (r : Release) (p : EntryChangeSetPath)
deriving DecidableEq, Repr

/-- `EntryReleasePath::entry`. -/
def EntryReleasePath.entry : EntryReleasePath → Entry
  | .unreleased p => p.entry
  | .released _ p => p.entry

/-- Model of `EntryPath`. -/
structure EntryPath where
  changelog : Changelog
  release_path : EntryReleasePath
deriving DecidableEq, Repr

/-- `EntryPath::entry`. -/
def EntryPath.entry (p : EntryPath) : Entry :=
  p.release_path.entry

/-! ## Traversal iterators

Each Rust iterator is modelled by the list of items it yields from a given
state ("draining" the state machine); the functions mirror the `new`/`next`
control flow, including the `?` early exits. -/

/-- `ComponentSectionIter::new` (`component_section.rs`): `None` when the
component section is empty, otherwise the initial entry cursor `0`. -/
def ComponentSectionIter.new (sec : ComponentSection) : Option Nat :=
  if sec.is_empty then none else some 0

/-- Draining `ComponentSectionIter` from entry cursor `entry_id`: `next`
yields `entries[entry_id]` and advances until out of range. -/
def ComponentSectionIter.run (sec : ComponentSection) (entry_id : Nat) :
    List Entry :=
  match h : sec.entries[entry_id]? with
  | some e => e :: ComponentSectionIter.run sec (entry_id + 1)
  | none => []
termination_by sec.entries.length - entry_id
decreasing_by
  have : entry_id < sec.entries.length := by
    have := List.getElem?_eq_some.mp h
    exact this.1
  omega

/-- Generic model of the cursor-advancing loops of the iterators (the `for`
loop of `ComponentSectionsIter::new` and the `while` loops of
`ComponentSectionsIter::next`, `ChangeSetIter::next` and
`ReleasesIter::next`): the first index at or after `start` whose element
satisfies `p`. -/
def findIdxFrom {α : Type} (p : α → Bool) (l : List α) (start : Nat) :
    Option Nat :=
  match h : l[start]? with
  | none => none
  | some x =>
    if p x then some start
    else findIdxFrom p l (start + 1)
termination_by l.length - start
decreasing_by
  have : start < l.length := (List.getElem?_eq_some.mp h).1
  omega

theorem findIdxFrom_spec {α : Type} (p : α → Bool) (l : List α) :
    ∀ start id, findIdxFrom p l start = some id →
      start ≤ id ∧ id < l.length := by
  suffices h : ∀ n start id, l.length - start ≤ n →
      findIdxFrom p l start = some id → start ≤ id ∧ id < l.length by
    intro start id
    exact h (l.length - start) start id le_rfl
  intro n
  induction n with
  | zero =>
    intro start id hn hfind
    rw [findIdxFrom] at hfind
    match h : l[start]? with
    | none => rw [h] at hfind; exact absurd hfind (by simp)
    | some x =>
      have hlt : start < l.length := (List.getElem?_eq_some.mp h).1
      omega
  | succ n ih =>
    intro start id hn hfind
    rw [findIdxFrom] at hfind
    match h : l[start]? with
    | none => rw [h] at hfind; exact absurd hfind (by simp)
    | some x =>
      rw [h] at hfind
      have hlt : start < l.length := (List.getElem?_eq_some.mp h).1
      by_cases hp : p x
      · simp only [hp, if_true, Option.some.injEq] at hfind
        omega
      · simp only [hp, if_false] at hfind
        have := ih (start + 1) id (by omega) hfind
        omega

/-- The `while` loop of `ComponentSectionsIter::next` and the `for` loop of
`ComponentSectionsIter::new` (`change_set_section.rs`): the first index at or
after `start` whose component section admits an iterator (is non-empty). -/
def ComponentSectionsIter.find (sections : List ComponentSection) (start : Nat) :
    Option Nat :=
  findIdxFrom (fun sec => (ComponentSectionIter.new sec).isSome) sections start

/-- `ComponentSectionsIter.new`: cursor on the first non-empty component
section (inner entry cursor `0`), or `None`. -/
def ComponentSectionsIter.new (css : ChangeSetSection) : Option Nat :=
  ComponentSectionsIter.find css.component_sections 0


/-- Draining `ComponentSectionsIter` (`change_set_section.rs`) from a
cursor `(section_id, inner)`: `next` reads the current component section
(exiting when out of range), yields its next entry, and on exhaustion moves
to the next non-empty component section via the `while` loop. -/
def ComponentSectionsIter.run (sections : List ComponentSection)
    (section_id : Nat) (inner : Nat) : List ChangeSetComponentPath :=
  match h : sections[section_id]? with
  | none => []
  | some sec =>
    match h2 : sec.entries[inner]? with
    | some e =>
      .component sec e :: ComponentSectionsIter.run sections section_id (inner + 1)
    | none =>
      match h3 : ComponentSectionsIter.find sections (section_id + 1) with
      | none => []
      | some id2 => ComponentSectionsIter.run sections id2 0
termination_by
  (sections.length - section_id,
    ((sections[section_id]?).elim 0 (fun s => s.entries.length)) - inner)
decreasing_by
  · apply Prod.Lex.right
    have hi : inner < sec.entries.length := (List.getElem?_eq_some.mp h2).1
    simp only [h, Option.elim]
    omega
  · apply Prod.Lex.left
    have hs : section_id < sections.length := (List.getElem?_eq_some.mp h).1
    rw [ComponentSectionsIter.find] at h3
    have := findIdxFrom_spec _ sections (section_id + 1) id2 h3
    omega

/-- Draining `ChangeSetSectionIter` (`change_set_section.rs`) from the
`General(entry_id)` state: yield general entries in order; on exhaustion,
switch to the component sections (`ComponentSectionsIter::new(section)?` —
`None` terminates the iterator). -/
def ChangeSetSectionIter.runGeneral (sec : ChangeSetSection) (entry_id : Nat) :
    List ChangeSetComponentPath :=
  match h : sec.entries[entry_id]? with
  | some e => .general e :: ChangeSetSectionIter.runGeneral sec (entry_id + 1)
  | none =>
    match ComponentSectionsIter.new sec with
    | none => []
    | some id => ComponentSectionsIter.run sec.component_sections id 0
termination_by sec.entries.length - entry_id
decreasing_by
  have : entry_id < sec.entries.length := (List.getElem?_eq_some.mp h).1
  omega

/-- `ChangeSetSectionIter::new` plus draining (`change_set_section.rs`):
the initial state is `General(0)` when there are general entries, otherwise
the component-sections state (`None` when that also fails).  Every yielded
component path is wrapped with the section, as in
`ChangeSetSectionIter::next`. -/
def ChangeSetSectionIter.items (sec : ChangeSetSection) :
    Option (List ChangeSetSectionPath) :=
  if !sec.entries.isEmpty then
    some ((ChangeSetSectionIter.runGeneral sec 0).map
      (fun p => ⟨sec, p⟩))
  else
    (ComponentSectionsIter.new sec).map (fun id =>
      (ComponentSectionsIter.run sec.component_sections id 0).map
        (fun p => ⟨sec, p⟩))

/-- The `while` loop of `ChangeSetIter::next` (`change_set.rs`): the first
index at or after `start` whose section admits a `ChangeSetSectionIter`. -/
def ChangeSetIter.find (sections : List ChangeSetSection) (start : Nat) :
    Option Nat :=
  findIdxFrom (fun sec => (ChangeSetSectionIter.items sec).isSome) sections start

/-- Draining `ChangeSetIter` (`change_set.rs`) from the state in which the
current section iterator is exhausted and the cursor advances from `start`:
each found non-empty section is drained and wrapped with the change set, as
in `ChangeSetIter::next`. -/
def ChangeSetIter.rest (cs : ChangeSet) (start : Nat) : List EntryChangeSetPath :=
  match hf : ChangeSetIter.find cs.sections start with
  | none => []
  | some id =>
    (match cs.sections[id]? with
      | some sec =>
        ((ChangeSetSectionIter.items sec).getD []).map
          (fun sp => ⟨cs, sp⟩)
      | none => []) ++ ChangeSetIter.rest cs (id + 1)
termination_by cs.sections.length - start
decreasing_by
  have := findIdxFrom_spec _ cs.sections start id hf
  omega

/-- `ChangeSetIter::new` plus draining (`change_set.rs`): `new` demands a
first section (`sections.first()?`) *and* a section iterator for that first
section (`ChangeSetSectionIter::new(first_section)?`); the drain is the
first section's items followed by the remaining sections from index 1. -/
def ChangeSetIter.items (cs : ChangeSet) : Option (List EntryChangeSetPath) :=
  match cs.sections.head? with
  | none => none
  | some first_section =>
    (ChangeSetSectionIter.items first_section).map (fun sps =>
      sps.map (fun sp => ⟨cs, sp⟩) ++ ChangeSetIter.rest cs 1)

/-- The `while` loop of `ReleasesIter::next` (`changelog.rs`): the first
index at or after `start` whose release's change set admits a
`ChangeSetIter`. -/
def ReleasesIter.find (releases : List Release) (start : Nat) : Option Nat :=
  findIdxFrom (fun r => (ChangeSetIter.items r.changes).isSome) releases start

/-- Draining `ReleasesIter` (`changelog.rs`) from the state in which the
current change-set iterator is exhausted and the cursor advances from
`start`. -/
def ReleasesIter.rest (releases : List Release) (start : Nat) :
    List (Release × EntryChangeSetPath) :=
  match hf : ReleasesIter.find releases start with
  | none => []
  | some id =>
    (match releases[id]? with
      | some r =>
        ((ChangeSetIter.items r.changes).getD []).map (fun pp => (r, pp))
      | none => []) ++ ReleasesIter.rest releases (id + 1)
termination_by releases.length - start
decreasing_by
  have := findIdxFrom_spec _ releases start id hf
  omega

/-- `ReleasesIter::new` plus draining (`changelog.rs`): `new` demands a
first release (`releases.first()?`) *and* a change-set iterator for it
(`ChangeSetIter::new(&first_release.changes)?`). -/
def ReleasesIter.items (cl : Changelog) :
    Option (List (Release × EntryChangeSetPath)) :=
  match cl.releases.head? with
  | none => none
  | some first_release =>
    (ChangeSetIter.items first_release.changes).map (fun ps =>
      ps.map (fun pp => (first_release, pp)) ++ ReleasesIter.rest cl.releases 1)

/-- The `Released` tail of `ChangelogEntryIterState`: entered either
directly from `Changelog::entries` or when the unreleased iterator is
exhausted (`ReleasesIter::new(changelog)?`). -/
def Changelog.releasedTail (cl : Changelog) : List EntryPath :=
  match ReleasesIter.items cl with
  | none => []
  | some items => items.map (fun rp => ⟨cl, .released rp.1 rp.2⟩)

/-- `Changelog::entries` (`changelog.rs`), drained to the list of all
yielded entry paths: the unreleased change set's paths (when its iterator
construction succeeds) followed by the released paths. -/
def Changelog.entries (cl : Changelog) : List EntryPath :=
  match cl.maybe_unreleased with
  | some unreleased =>
    match ChangeSetIter.items unreleased with
    | some ps => ps.map (fun p => ⟨cl, .unreleased p⟩) ++ cl.releasedTail
    | none => cl.releasedTail
  | none => cl.releasedTail

/-! ## Closed-form characterization of the traversal

The drain functions above mirror the Rust control flow; the lemmas in this
section rewrite them into closed forms over `drop`/`filter`/`flatMap`, which
both document what the state machines compute and make concrete evaluation
straightforward. -/

theorem ComponentSectionIter.new_isSome (sec : ComponentSection) :
    (ComponentSectionIter.new sec).isSome = !sec.is_empty := by
  rw [ComponentSectionIter.new]
  by_cases h : sec.is_empty <;> simp [h]

theorem getElem?_none_length {α : Type} {l : List α} {i : Nat}
    (h : l[i]? = none) : l.length ≤ i := by
  rcases Nat.lt_or_ge i l.length with hlt | hge
  · rw [List.getElem?_eq_getElem hlt] at h
    exact absurd h (by simp)
  · exact hge

theorem ComponentSectionIter.compRun_eq (sec : ComponentSection) :
    ∀ i, ComponentSectionIter.run sec i = sec.entries.drop i := by
  suffices hfuel : ∀ n i, sec.entries.length - i ≤ n →
      ComponentSectionIter.run sec i = sec.entries.drop i by
    intro i; exact hfuel _ i le_rfl
  intro n
  induction n with
  | zero =>
    intro i hn
    rw [ComponentSectionIter.run]
    split
    · rename_i e h
      have := (List.getElem?_eq_some.mp h).1
      omega
    · rename_i h
      rw [List.drop_eq_nil_of_le (getElem?_none_length h)]
  | succ n ih =>
    intro i hn
    rw [ComponentSectionIter.run]
    split
    · rename_i e h
      obtain ⟨hlt, hget⟩ := List.getElem?_eq_some.mp h
      rw [ih (i + 1) (by omega), List.drop_eq_getElem_cons hlt, hget]
    · rename_i h
      rw [List.drop_eq_nil_of_le (getElem?_none_length h)]

theorem findIdxFrom_eq_none_filter {α : Type} (p : α → Bool) (l : List α) :
    ∀ start, findIdxFrom p l start = none → (l.drop start).filter p = [] := by
  suffices hfuel : ∀ n start, l.length - start ≤ n →
      findIdxFrom p l start = none → (l.drop start).filter p = [] by
    intro start; exact hfuel _ start le_rfl
  intro n
  induction n with
  | zero =>
    intro start hn _
    rw [List.drop_eq_nil_of_le (by omega)]
    rfl
  | succ n ih =>
    intro start hn hfind
    rw [findIdxFrom] at hfind
    split at hfind
    · rename_i h
      rw [List.drop_eq_nil_of_le (getElem?_none_length h)]
      rfl
    · rename_i x h
      obtain ⟨hlt, hget⟩ := List.getElem?_eq_some.mp h
      by_cases hp : p x
      · simp [hp] at hfind
      · simp only [hp, if_false] at hfind
        rw [List.drop_eq_getElem_cons hlt, hget, List.filter_cons_of_neg
          (by simp [hp])]
        exact ih (start + 1) (by omega) hfind

theorem findIdxFrom_eq_some_filter {α : Type} (p : α → Bool) (l : List α) :
    ∀ start id, findIdxFrom p l start = some id →
      ∃ x, l[id]? = some x ∧ p x = true ∧
        (l.drop start).filter p = x :: (l.drop (id + 1)).filter p := by
  suffices hfuel : ∀ n start id, l.length - start ≤ n →
      findIdxFrom p l start = some id →
      ∃ x, l[id]? = some x ∧ p x = true ∧
        (l.drop start).filter p = x :: (l.drop (id + 1)).filter p by
    intro start id; exact hfuel _ start id le_rfl
  intro n
  induction n with
  | zero =>
    intro start id hn hfind
    rw [findIdxFrom] at hfind
    split at hfind
    · exact absurd hfind (by simp)
    · rename_i x h
      have := (List.getElem?_eq_some.mp h).1
      omega
  | succ n ih =>
    intro start id hn hfind
    rw [findIdxFrom] at hfind
    split at hfind
    · exact absurd hfind (by simp)
    · rename_i x h
      obtain ⟨hlt, hget⟩ := List.getElem?_eq_some.mp h
      by_cases hp : p x
      · simp only [hp, if_true, Option.some.injEq] at hfind
        subst hfind
        refine ⟨x, h, hp, ?_⟩
        rw [List.drop_eq_getElem_cons hlt, hget, List.filter_cons_of_pos hp]
      · simp only [hp, if_false] at hfind
        obtain ⟨x', hx', hp', heq⟩ := ih (start + 1) id (by omega) hfind
        refine ⟨x', hx', hp', ?_⟩
        rw [List.drop_eq_getElem_cons hlt, hget, List.filter_cons_of_neg
          (by simp [hp]), heq]

/-- Closed form of the component-sections part of a section's traversal:
all entries of the non-empty component sections, in order, tagged with their
component section. -/
def compsStruct (sections : List ComponentSection) : List ChangeSetComponentPath :=
  (sections.filter (fun c => !c.is_empty)).flatMap
    (fun c => c.entries.map (ChangeSetComponentPath.component c))

/-- The component-sections drain from a cursor search at `start` (the shape
shared by `ComponentSectionsIter::new` and the `while` loop of its
`next`). -/
def compsFindDrain (sections : List ComponentSection) (start : Nat) :
    List ChangeSetComponentPath :=
  match ComponentSectionsIter.find sections start with
  | none => []
  | some id => ComponentSectionsIter.run sections id 0

theorem ComponentSectionsIter.compsRun_eq (sections : List ComponentSection) :
    ∀ inner section_id, ComponentSectionsIter.run sections section_id inner =
      match sections[section_id]? with
      | none => []
      | some sec =>
        ((sec.entries.drop inner).map (ChangeSetComponentPath.component sec)) ++
          compsFindDrain sections (section_id + 1) := by
  suffices hfuel : ∀ n inner section_id,
      ((sections[section_id]?).elim 0 (fun s => s.entries.length)) - inner ≤ n →
      ComponentSectionsIter.run sections section_id inner =
      match sections[section_id]? with
      | none => []
      | some sec =>
        ((sec.entries.drop inner).map (ChangeSetComponentPath.component sec)) ++
          compsFindDrain sections (section_id + 1) by
    intro inner section_id; exact hfuel _ inner section_id le_rfl
  intro n
  induction n with
  | zero =>
    intro inner section_id hn
    rw [ComponentSectionsIter.run]
    split
    · rename_i h
      simp only [h]
    · split
      · rename_i sec h e h2
        rw [h] at hn
        simp only [Option.elim] at hn
        have := (List.getElem?_eq_some.mp h2).1
        omega
      · rename_i sec h h2
        simp only [h, List.drop_eq_nil_of_le (getElem?_none_length h2),
          List.map_nil, List.nil_append]
        rw [compsFindDrain]
        split
        · rename_i hf
          simp only [hf]
        · rename_i id2 hf
          simp only [hf]
  | succ n ih =>
    intro inner section_id hn
    rw [ComponentSectionsIter.run]
    split
    · rename_i h
      simp only [h]
    · split
      · rename_i sec h e h2
        rw [h] at hn
        simp only [Option.elim] at hn
        obtain ⟨hlt, hget⟩ := List.getElem?_eq_some.mp h2
        rw [ih (inner + 1) section_id
          (by rw [h]; simp only [Option.elim]; omega)]
        simp only [h, List.drop_eq_getElem_cons hlt, hget, List.map_cons,
          List.cons_append]
      · rename_i sec h h2
        simp only [h, List.drop_eq_nil_of_le (getElem?_none_length h2),
          List.map_nil, List.nil_append]
        rw [compsFindDrain]
        split
        · rename_i hf
          simp only [hf]
        · rename_i id2 hf
          simp only [hf]

theorem compsFindDrain_eq (sections : List ComponentSection) :
    ∀ start, compsFindDrain sections start = compsStruct (sections.drop start) := by
  have hpred : (fun sec => (ComponentSectionIter.new sec).isSome) =
      (fun c : ComponentSection => !c.is_empty) := by
    funext sec
    exact ComponentSectionIter.new_isSome sec
  suffices hfuel : ∀ n start, sections.length - start ≤ n →
      compsFindDrain sections start = compsStruct (sections.drop start) by
    intro start; exact hfuel _ start le_rfl
  intro n
  induction n with
  | zero =>
    intro start hn
    rw [compsFindDrain, List.drop_eq_nil_of_le (by omega)]
    split
    · rfl
    · rename_i id hf
      rw [ComponentSectionsIter.find] at hf
      have := findIdxFrom_spec _ sections start id hf
      omega
  | succ n ih =>
    intro start hn
    rw [compsFindDrain]
    split
    · rename_i hf
      rw [ComponentSectionsIter.find] at hf
      have hfil := findIdxFrom_eq_none_filter _ sections start hf
      rw [hpred] at hfil
      rw [compsStruct, hfil]
      rfl
    · rename_i id hf
      rw [ComponentSectionsIter.find] at hf
      have hspec := findIdxFrom_spec _ sections start id hf
      obtain ⟨x, hx, hpx, hfil⟩ :=
        findIdxFrom_eq_some_filter _ sections start id hf
      rw [hpred] at hfil
      rw [ComponentSectionsIter.compsRun_eq sections 0 id, hx,
        ih (id + 1) (by omega)]
      rw [compsStruct, compsStruct, hfil]
      simp only [List.flatMap_cons, List.drop_zero]

theorem ChangeSetSectionIter.runGeneral_eq (sec : ChangeSetSection) :
    ∀ i, ChangeSetSectionIter.runGeneral sec i =
      (sec.entries.drop i).map ChangeSetComponentPath.general ++
        compsStruct sec.component_sections := by
  suffices hfuel : ∀ n i, sec.entries.length - i ≤ n →
      ChangeSetSectionIter.runGeneral sec i =
      (sec.entries.drop i).map ChangeSetComponentPath.general ++
        compsStruct sec.component_sections by
    intro i; exact hfuel _ i le_rfl
  intro n
  induction n with
  | zero =>
    intro i hn
    rw [ChangeSetSectionIter.runGeneral]
    split
    · rename_i e h
      have := (List.getElem?_eq_some.mp h).1
      omega
    · rename_i h
      rw [List.drop_eq_nil_of_le (getElem?_none_length h)]
      simp only [List.map_nil, List.nil_append]
      have : (match ComponentSectionsIter.new sec with
          | none => ([] : List ChangeSetComponentPath)
          | some id => ComponentSectionsIter.run sec.component_sections id 0) =
          compsFindDrain sec.component_sections 0 := by
        rw [compsFindDrain, ComponentSectionsIter.new]
      rw [this, compsFindDrain_eq, List.drop_zero]
  | succ n ih =>
    intro i hn
    rw [ChangeSetSectionIter.runGeneral]
    split
    · rename_i e h
      obtain ⟨hlt, hget⟩ := List.getElem?_eq_some.mp h
      rw [ih (i + 1) (by omega), List.drop_eq_getElem_cons hlt, hget]
      simp only [List.map_cons, List.cons_append]
    · rename_i h
      rw [List.drop_eq_nil_of_le (getElem?_none_length h)]
      simp only [List.map_nil, List.nil_append]
      have : (match ComponentSectionsIter.new sec with
          | none => ([] : List ChangeSetComponentPath)
          | some id => ComponentSectionsIter.run sec.component_sections id 0) =
          compsFindDrain sec.component_sections 0 := by
        rw [compsFindDrain, ComponentSectionsIter.new]
      rw [this, compsFindDrain_eq, List.drop_zero]

/-- The gate deciding whether a section admits a `ChangeSetSectionIter`
(`ChangeSetSectionIter::new` returns `Some`): it has general entries or some
non-empty component section. -/
def sectionAdmits (sec : ChangeSetSection) : Bool :=
  !sec.entries.isEmpty || sec.component_sections.any (fun c => !c.is_empty)

/-- Closed form of a section's traversal: general entries first, then the
entries of the non-empty component sections, all wrapped with the section. -/
def sectionStructItems (sec : ChangeSetSection) : List ChangeSetSectionPath :=
  ((sec.entries.map ChangeSetComponentPath.general) ++
    compsStruct sec.component_sections).map (fun p => ⟨sec, p⟩)

theorem ChangeSetSectionIter.secItems_eq (sec : ChangeSetSection) :
    ChangeSetSectionIter.items sec =
      if sectionAdmits sec then some (sectionStructItems sec) else none := by
  rw [ChangeSetSectionIter.items]
  by_cases he : sec.entries.isEmpty
  · have hnil : sec.entries = [] := List.isEmpty_iff.mp he
    simp only [he, Bool.not_true, if_false]
    rw [ComponentSectionsIter.new]
    match hf : findIdxFrom (fun sec => (ComponentSectionIter.new sec).isSome)
        sec.component_sections 0 with
    | none =>
      rw [ComponentSectionsIter.find, hf]
      have hfil := findIdxFrom_eq_none_filter _ sec.component_sections 0 hf
      rw [List.drop_zero] at hfil
      have hfil2 : sec.component_sections.filter (fun c => !c.is_empty) = [] := by
        rw [← List.filter_congr (fun a _ => ComponentSectionIter.new_isSome a)]
        exact hfil
      have hany : sec.component_sections.any (fun c => !c.is_empty) = false := by
        rw [List.any_eq_false]
        intro x hx
        simpa using List.filter_eq_nil_iff.mp hfil2 x hx
      rw [sectionAdmits, hnil]
      simp [hany]
    | some id =>
      rw [ComponentSectionsIter.find, hf]
      obtain ⟨x, hx, hpx, hfil⟩ :=
        findIdxFrom_eq_some_filter _ sec.component_sections 0 id hf
      have hrun : ComponentSectionsIter.run sec.component_sections id 0 =
          compsFindDrain sec.component_sections 0 := by
        rw [compsFindDrain, ComponentSectionsIter.find, hf]
      have hany : sec.component_sections.any (fun c => !c.is_empty) = true := by
        rw [List.any_eq_true]
        refine ⟨x, List.getElem?_mem hx, ?_⟩
        rw [← ComponentSectionIter.new_isSome]
        exact hpx
      rw [sectionAdmits, sectionStructItems, hnil]
      simp [he, hany, hrun, compsFindDrain_eq]
  · simp only [he, Bool.not_false, if_true]
    rw [ChangeSetSectionIter.runGeneral_eq sec 0, List.drop_zero]
    rw [sectionAdmits]
    simp only [he, Bool.not_false, Bool.true_or, if_true, sectionStructItems]

theorem ChangeSetSectionIter.secItems_isSome (sec : ChangeSetSection) :
    (ChangeSetSectionIter.items sec).isSome = sectionAdmits sec := by
  rw [ChangeSetSectionIter.secItems_eq]
  by_cases h : sectionAdmits sec <;> simp [h]

/-- Closed form of a change set's traversal: the admitting sections (see
`sectionAdmits`) in order, each drained, wrapped with the change set. -/
def changeSetStructItems (cs : ChangeSet) : List EntryChangeSetPath :=
  (cs.sections.filter sectionAdmits).flatMap
    (fun sec => (sectionStructItems sec).map (fun sp => ⟨cs, sp⟩))

theorem ChangeSetIter.csRest_eq (cs : ChangeSet) :
    ∀ start, ChangeSetIter.rest cs start =
      ((cs.sections.drop start).filter sectionAdmits).flatMap
        (fun sec => (sectionStructItems sec).map
          (fun sp => (⟨cs, sp⟩ : EntryChangeSetPath))) := by
  have hpred : (fun sec => (ChangeSetSectionIter.items sec).isSome) =
      sectionAdmits := by
    funext sec
    exact ChangeSetSectionIter.secItems_isSome sec
  suffices hfuel : ∀ n start, cs.sections.length - start ≤ n →
      ChangeSetIter.rest cs start =
      ((cs.sections.drop start).filter sectionAdmits).flatMap
        (fun sec => (sectionStructItems sec).map
          (fun sp => (⟨cs, sp⟩ : EntryChangeSetPath))) by
    intro start; exact hfuel _ start le_rfl
  intro n
  induction n with
  | zero =>
    intro start hn
    rw [ChangeSetIter.rest, List.drop_eq_nil_of_le (by omega)]
    split
    · rfl
    · rename_i id hf
      rw [ChangeSetIter.find] at hf
      have := findIdxFrom_spec _ cs.sections start id hf
      omega
  | succ n ih =>
    intro start hn
    rw [ChangeSetIter.rest]
    split
    · rename_i hf
      rw [ChangeSetIter.find] at hf
      have hfil := findIdxFrom_eq_none_filter _ cs.sections start hf
      rw [hpred] at hfil
      rw [hfil]
      rfl
    · rename_i id hf
      rw [ChangeSetIter.find] at hf
      have hspec := findIdxFrom_spec _ cs.sections start id hf
      obtain ⟨x, hx, hpx, hfil⟩ :=
        findIdxFrom_eq_some_filter _ cs.sections start id hf
      rw [hpred] at hfil
      simp only [hx, hfil]
      have hitems : ChangeSetSectionIter.items x = some (sectionStructItems x) := by
        rw [ChangeSetSectionIter.secItems_isSome] at hpx
        rw [ChangeSetSectionIter.secItems_eq]
        simp [hpx]
      rw [hitems, ih (id + 1) (by omega)]
      simp only [Option.getD_some, List.flatMap_cons]

/-- The gate deciding whether a change set admits a `ChangeSetIter`
(`ChangeSetIter::new` returns `Some`): it has a first section *and* that
first section admits a section iterator.  Note the asymmetry with
`sectionAdmits`: a non-admitting *first* section vetoes the whole change
set, even when later sections are non-empty. -/
def changeSetIterAdmits (cs : ChangeSet) : Bool :=
  match cs.sections.head? with
  | none => false
  | some first_section => sectionAdmits first_section

theorem ChangeSetIter.csItems_eq (cs : ChangeSet) :
    ChangeSetIter.items cs =
      if changeSetIterAdmits cs then some (changeSetStructItems cs) else none := by
  rw [ChangeSetIter.items, changeSetIterAdmits]
  match hcs : cs.sections with
  | [] => simp
  | first_section :: tail =>
    simp only [List.head?_cons]
    rw [ChangeSetSectionIter.secItems_eq]
    by_cases hadm : sectionAdmits first_section
    · simp only [hadm, if_true, Option.map_some]
      rw [ChangeSetIter.csRest_eq cs 1, changeSetStructItems, hcs]
      simp only [List.drop_succ_cons, List.drop_zero, List.filter_cons_of_pos hadm,
        List.flatMap_cons]
      rfl
    · simp [hadm]

theorem ChangeSetIter.csItems_isSome (cs : ChangeSet) :
    (ChangeSetIter.items cs).isSome = changeSetIterAdmits cs := by
  rw [ChangeSetIter.csItems_eq]
  by_cases h : changeSetIterAdmits cs <;> simp [h]

/-- Closed form of the released part of the traversal: the releases whose
change set admits an iterator, in order, each drained and paired with its
release. -/
def releasesStructItems (releases : List Release) :
    List (Release × EntryChangeSetPath) :=
  (releases.filter (fun r => changeSetIterAdmits r.changes)).flatMap
    (fun r => (changeSetStructItems r.changes).map (fun pp => (r, pp)))

theorem ReleasesIter.relRest_eq (releases : List Release) :
    ∀ start, ReleasesIter.rest releases start =
      ((releases.drop start).filter (fun r => changeSetIterAdmits r.changes)).flatMap
        (fun r => (changeSetStructItems r.changes).map (fun pp => (r, pp))) := by
  have hpred : (fun r : Release => (ChangeSetIter.items r.changes).isSome) =
      (fun r : Release => changeSetIterAdmits r.changes) := by
    funext r
    exact ChangeSetIter.csItems_isSome r.changes
  suffices hfuel : ∀ n start, releases.length - start ≤ n →
      ReleasesIter.rest releases start =
      ((releases.drop start).filter (fun r => changeSetIterAdmits r.changes)).flatMap
        (fun r => (changeSetStructItems r.changes).map (fun pp => (r, pp))) by
    intro start; exact hfuel _ start le_rfl
  intro n
  induction n with
  | zero =>
    intro start hn
    rw [ReleasesIter.rest, List.drop_eq_nil_of_le (by omega)]
    split
    · rfl
    · rename_i id hf
      rw [ReleasesIter.find] at hf
      have := findIdxFrom_spec _ releases start id hf
      omega
  | succ n ih =>
    intro start hn
    rw [ReleasesIter.rest]
    split
    · rename_i hf
      rw [ReleasesIter.find] at hf
      have hfil := findIdxFrom_eq_none_filter _ releases start hf
      rw [hpred] at hfil
      rw [hfil]
      rfl
    · rename_i id hf
      rw [ReleasesIter.find] at hf
      have hspec := findIdxFrom_spec _ releases start id hf
      obtain ⟨x, hx, hpx, hfil⟩ :=
        findIdxFrom_eq_some_filter _ releases start id hf
      rw [hpred] at hfil
      simp only [hx, hfil]
      have hitems : ChangeSetIter.items x.changes =
          some (changeSetStructItems x.changes) := by
        rw [ChangeSetIter.csItems_isSome] at hpx
        rw [ChangeSetIter.csItems_eq]
        simp [hpx]
      rw [hitems, ih (id + 1) (by omega)]
      simp only [Option.getD_some, List.flatMap_cons]

theorem ReleasesIter.relItems_eq (cl : Changelog) :
    ReleasesIter.items cl =
      match cl.releases.head? with
      | none => none
      | some first_release =>
        if changeSetIterAdmits first_release.changes then
          some (releasesStructItems cl.releases)
        else none := by
  rw [ReleasesIter.items]
  match hcs : cl.releases with
  | [] => simp
  | first_release :: tail =>
    simp only [List.head?_cons]
    rw [ChangeSetIter.csItems_eq]
    by_cases hadm : changeSetIterAdmits first_release.changes
    · simp only [hadm, if_true, Option.map_some]
      rw [ReleasesIter.relRest_eq (first_release :: tail) 1, releasesStructItems]
      simp only [List.drop_succ_cons, List.drop_zero]
      rw [List.filter_cons_of_pos (by simpa using hadm)]
      simp only [List.flatMap_cons]
      rfl
    · simp [hadm]

/-- Closed form of `Changelog::entries`: the unreleased paths (only when the
unreleased change set admits an iterator) followed by the released paths
(only when the *first* release's change set admits an iterator). -/
theorem Changelog.entries_eq (cl : Changelog) :
    cl.entries =
      (match cl.maybe_unreleased with
        | some u =>
          if changeSetIterAdmits u then
            (changeSetStructItems u).map
              (fun p => (⟨cl, .unreleased p⟩ : EntryPath))
          else []
        | none => []) ++
      (match cl.releases.head? with
        | none => []
        | some first_release =>
          if changeSetIterAdmits first_release.changes then
            (releasesStructItems cl.releases).map
              (fun rp => (⟨cl, .released rp.1 rp.2⟩ : EntryPath))
          else []) := by
  have htail : cl.releasedTail =
      (match cl.releases.head? with
        | none => []
        | some first_release =>
          if changeSetIterAdmits first_release.changes then
            (releasesStructItems cl.releases).map
              (fun rp => (⟨cl, .released rp.1 rp.2⟩ : EntryPath))
          else []) := by
    rw [Changelog.releasedTail, ReleasesIter.relItems_eq]
    match hh : cl.releases.head? with
    | none => simp
    | some first_release =>
      simp only []
      by_cases hadm : changeSetIterAdmits first_release.changes
      · simp [hadm]
      · simp [hadm]
  rw [Changelog.entries]
  match hu : cl.maybe_unreleased with
  | none => simp [htail]
  | some u =>
    rw [htail]
    simp only [ChangeSetIter.csItems_eq]
    by_cases hadm : changeSetIterAdmits u
    · simp [hadm]
    · simp [hadm]

/-! ## Default configuration (`Config::default`, `config.rs`) -/

/-- `Config::default` (restricted to the modelled fields). -/
def Config.default : Config where
  heading := "# CHANGELOG"
  bullet_style := .dash
  empty_msg := "Nothing to see here! Add some entries to get started."
  sort_releases_by := [.version]
  unreleased := ⟨"unreleased", "## Unreleased"⟩
  change_sets := ⟨"summary.md", "md"⟩
  change_set_sections := ⟨.id⟩
  components := ⟨"General", 2⟩

/-! ## Claim C8 -/

theorem joinStrs_replicate_space :
    ∀ n, joinStrs "" (List.replicate n " ") = String.mk (List.replicate n ' ') := by
  intro n
  induction n with
  | zero => decide
  | succ m ih =>
    match m, ih with
    | 0, _ => decide
    | k + 1, ih =>
      show (" " ++ "" ++ joinStrs "" (List.replicate (k + 1) " ")) = _
      rw [ih]
      apply String.ext
      simp [String.data_append, List.replicate_succ]

theorem spacesJoin_eq (n : Nat) :
    spacesJoin n = String.mk (List.replicate n ' ') := by
  rw [spacesJoin]
  have : (List.range n).map (fun _ => " ") = List.replicate n " " := by
    induction n with
    | zero => rfl
    | succ m ih => rw [List.range_succ, List.map_append, ih]; simp [List.replicate_succ']
  rw [this, joinStrs_replicate_space]

/-- Claim C8: for every entry text and base indent width `n`,
`indent_bulleted_str` emits each line whose trimmed form starts with a
bullet marker (`*` or `-`) prefixed by exactly `n` spaces, and every other
line prefixed by exactly `n + 2` spaces, each applied to the trimmed line;
in particular, at width 2 (overflow width 4) the two-line entry
`"- A\n  overflow"` renders as `"  - A"` / `"    overflow"`. -/
theorem C8_indentation_rule :
    (∀ (s : String) (n : Nat),
      indent_bulleted_str s n (n + 2) =
        (rsSplit '\n' s).map (fun line =>
          if startsWithChar (rsTrim line) '*' || startsWithChar (rsTrim line) '-' then
            String.mk (List.replicate n ' ') ++ rsTrim line
          else
            String.mk (List.replicate (n + 2) ' ') ++ rsTrim line))
    ∧ indent_bulleted_str "- A\n  overflow" 2 4 = ["  - A", "    overflow"] := by
  constructor
  · intro s n
    rw [indent_bulleted_str]
    apply List.map_congr_left
    intro line _
    by_cases hb : startsWithChar (rsTrim line) '*' || startsWithChar (rsTrim line) '-'
    · simp [hb, spacesJoin_eq]
    · simp [hb, spacesJoin_eq]
  · decide

/-! ## Claim C9 -/

/-- Whether a string ends with exactly one `'\n'` (its last character is a
newline and the one before it, if any, is not). -/
def endsWithExactlyOneNewline (s : String) : Bool :=
  match s.data.reverse with
  | [] => false
  | c :: rest =>
    c = '\n' &&
      (match rest with
        | [] => true
        | c2 :: _ => c2 ≠ '\n')

/-- The changelog used to refute the "exactly one trailing newline" part of
claim C9: its prologue ends with a newline (the `Changelog` model places no
constraint forbidding this), so the rendered document ends with two. -/
def clNewlineProl : Changelog :=
  ⟨none, [], some "x\n", none⟩

/-- Claim C9, counterexample: the full render of a changelog whose prologue
ends in `'\n'` ends with *two* trailing newlines, refuting "any full render
ends with exactly one trailing newline". -/
theorem C9_counterexample :
    Changelog.render_all clNewlineProl Config.default = "# CHANGELOG\n\nx\n\n"
    ∧ endsWithExactlyOneNewline
        (Changelog.render_all clNewlineProl Config.default) = false := by
  constructor
  · decide
  · decide

/-- Claim C9, amended: rendering a changelog with no releases, no unreleased
change set, no prologue and no epilogue yields exactly the configured
heading, a blank line, the configured empty message, and a trailing newline;
and any full render ends with *at least* one trailing newline (exactly one
cannot be guaranteed: a block ending in a newline, as in
`C9_counterexample`, produces more). -/
theorem C9_empty_render_and_trailing_newline :
    (∀ (config : Config) (cl : Changelog),
      cl.maybe_unreleased = none → cl.releases = [] → cl.prologue = none →
      cl.epilogue = none →
      cl.render_all config = config.heading ++ "\n\n" ++ config.empty_msg ++ "\n")
    ∧ (∀ (config : Config) (cl : Changelog) (b : Bool),
      (cl.render config b).data.getLast? = some '\n') := by
  constructor
  · intro config cl hu hr hp he
    have hempty : cl.is_empty = true := by
      rw [Changelog.is_empty, hu, hr, hp, he]
      rfl
    rw [Changelog.render_all, Changelog.render, hempty]
    simp only [if_true]
    rfl
  · intro config cl b
    rw [Changelog.render]
    rw [String.data_append]
    have : ("\n" : String).data = ['\n'] := rfl
    rw [this, List.getLast?_concat]

/-- Witness for `C9_empty_render_and_trailing_newline` at the default
configuration, the empty changelog and `clNewlineProl`. -/
theorem C9_empty_render_witness :
    Changelog.render_all ⟨none, [], none, none⟩ Config.default =
      "# CHANGELOG" ++ "\n\n" ++
        "Nothing to see here! Add some entries to get started." ++ "\n"
    ∧ (Changelog.render clNewlineProl Config.default true).data.getLast? =
        some '\n' :=
  ⟨C9_empty_render_and_trailing_newline.1 Config.default ⟨none, [], none, none⟩
      rfl rfl rfl rfl,
    C9_empty_render_and_trailing_newline.2 Config.default clNewlineProl true⟩

/-! ## Claim C5 -/

/-- Claim C5: the unreleased-only render fails with the dedicated
`NoUnreleasedEntries` error exactly when the unreleased change set is absent
or empty; otherwise it returns the unreleased heading followed by the change
set body; the full/released-only render is total by construction and
substitutes the configured empty message when the changelog is empty. -/
theorem C5_render_unreleased_error :
    ∀ (config : Config) (cl : Changelog),
      (cl.render_unreleased config = .error .noUnreleasedEntries ↔
        (match cl.maybe_unreleased with
          | none => True
          | some u => u.is_empty = true))
      ∧ (∀ u, cl.maybe_unreleased = some u → u.is_empty = false →
          cl.render_unreleased config =
            .ok (config.unreleased.heading ++ "\n\n" ++ u.render config))
      ∧ (∀ b : Bool, cl.is_empty = true →
          cl.render config b =
            config.heading ++ "\n\n" ++ config.empty_msg ++ "\n") := by
  intro config cl
  refine ⟨?_, ?_, ?_⟩
  · rw [Changelog.render_unreleased, Changelog.unreleased_paragraphs]
    match hu : cl.maybe_unreleased with
    | none => simp [Except.map]
    | some u =>
      by_cases he : u.is_empty
      · simp [he, Except.map]
      · simp [he, Except.map]
  · intro u hu hne
    rw [Changelog.render_unreleased, Changelog.unreleased_paragraphs, hu]
    simp only [hne, Bool.not_false, if_true, Except.map]
    rfl
  · intro b hempty
    rw [Changelog.render, hempty]
    simp only [if_true]
    rfl

/-- Witness for `C5_render_unreleased_error`: a changelog whose unreleased
change set holds one entry renders that change set under the unreleased
heading; one with no unreleased change set yields the dedicated error; the
empty changelog renders the empty message. -/
theorem C5_render_unreleased_witness :
    Changelog.render_unreleased
        ⟨some ⟨none, [⟨"features", "FEATURES", [⟨1, "- A"⟩], []⟩]⟩, [], none, none⟩
        Config.default =
      .ok ("## Unreleased" ++ "\n\n" ++
        ChangeSet.render ⟨none, [⟨"features", "FEATURES", [⟨1, "- A"⟩], []⟩]⟩
          Config.default)
    ∧ Changelog.render_unreleased ⟨none, [], none, none⟩ Config.default =
        .error .noUnreleasedEntries
    ∧ Changelog.render ⟨none, [], none, none⟩ Config.default false =
        "# CHANGELOG" ++ "\n\n" ++
          "Nothing to see here! Add some entries to get started." ++ "\n" :=
  ⟨(C5_render_unreleased_error Config.default _).2.1 _ rfl (by decide),
    ((C5_render_unreleased_error Config.default _).1).mpr (by decide),
    (C5_render_unreleased_error Config.default _).2.2 false (by decide)⟩

/-! ## Claim C4 -/

theorem natCmp_eq_iff (a b : Nat) : natCmp a b = .eq ↔ a = b := by
  rw [natCmp]
  split_ifs with h1 h2 <;> simp <;> omega

theorem intCmp_eq_iff (a b : Int) : intCmp a b = .eq ↔ a = b := by
  rw [intCmp]
  split_ifs with h1 h2 <;> simp <;> omega

theorem charCmp_eq_iff (a b : Char) : charCmp a b = .eq ↔ a = b := by
  rw [charCmp, natCmp_eq_iff]
  constructor
  · intro h
    exact Char.eq_of_val_eq (UInt32.ext h)
  · intro h
    rw [h]

theorem charsCmp_eq_iff : ∀ as bs : List Char, charsCmp as bs = .eq ↔ as = bs := by
  intro as
  induction as with
  | nil =>
    intro bs
    cases bs <;> simp [charsCmp]
  | cons a as ih =>
    intro bs
    cases bs with
    | nil => simp [charsCmp]
    | cons b bs =>
      rw [charsCmp]
      cases h : charCmp a b
      · simp only []
        constructor
        · intro hc; exact absurd hc (by simp)
        · intro hc
          simp only [List.cons.injEq] at hc
          rw [(charCmp_eq_iff a b).mpr hc.1] at h
          exact absurd h (by simp)
      · simp only [List.cons.injEq, ih bs]
        have := (charCmp_eq_iff a b).mp h
        simp [this]
      · simp only []
        constructor
        · intro hc; exact absurd hc (by simp)
        · intro hc
          simp only [List.cons.injEq] at hc
          rw [(charCmp_eq_iff a b).mpr hc.1] at h
          exact absurd h (by simp)

theorem strCmp_eq_iff (a b : String) : strCmp a b = .eq ↔ a = b := by
  rw [strCmp, charsCmp_eq_iff]
  exact ⟨fun h => String.ext h, fun h => by rw [h]⟩

theorem PreId.preIdCmp_eq_iff : ∀ a b : PreId, PreId.cmp a b = .eq ↔ a = b := by
  intro a b
  cases a <;> cases b <;>
    simp [PreId.cmp, natCmp_eq_iff, strCmp_eq_iff]

theorem preListCmp_eq_iff : ∀ as bs : List PreId, preListCmp as bs = .eq ↔ as = bs := by
  intro as
  induction as with
  | nil =>
    intro bs
    cases bs <;> simp [preListCmp]
  | cons a as ih =>
    intro bs
    cases bs with
    | nil => simp [preListCmp]
    | cons b bs =>
      rw [preListCmp]
      cases h : PreId.cmp a b
      · simp only []
        constructor
        · intro hc; exact absurd hc (by simp)
        · intro hc
          simp only [List.cons.injEq] at hc
          rw [(PreId.preIdCmp_eq_iff a b).mpr hc.1] at h
          exact absurd h (by simp)
      · simp only [List.cons.injEq, ih bs]
        have := (PreId.preIdCmp_eq_iff a b).mp h
        simp [this]
      · simp only []
        constructor
        · intro hc; exact absurd hc (by simp)
        · intro hc
          simp only [List.cons.injEq] at hc
          rw [(PreId.preIdCmp_eq_iff a b).mpr hc.1] at h
          exact absurd h (by simp)

theorem prePartCmp_eq_iff : ∀ as bs : List PreId, prePartCmp as bs = .eq ↔ as = bs := by
  intro as bs
  match as, bs with
  | [], [] => simp [prePartCmp]
  | [], _ :: _ => simp [prePartCmp]
  | _ :: _, [] => simp [prePartCmp]
  | a :: as, b :: bs =>
    rw [prePartCmp]
    exact preListCmp_eq_iff _ _

theorem Version.versionCmp_eq_iff (a b : Version) : Version.cmp a b = .eq ↔ a = b := by
  obtain ⟨am, an, ap, apre⟩ := a
  obtain ⟨bm, bn, bp, bpre⟩ := b
  rw [Version.cmp]
  simp only [Version.mk.injEq]
  cases h1 : natCmp am bm
  · simp only []
    have : ¬am = bm := fun hc => by
      rw [(natCmp_eq_iff am bm).mpr hc] at h1; exact absurd h1 (by simp)
    simp [this]
  · have h1e := (natCmp_eq_iff am bm).mp h1
    cases h2 : natCmp an bn
    · simp only []
      have : ¬an = bn := fun hc => by
        rw [(natCmp_eq_iff an bn).mpr hc] at h2; exact absurd h2 (by simp)
      simp [this]
    · have h2e := (natCmp_eq_iff an bn).mp h2
      cases h3 : natCmp ap bp
      · simp only []
        have : ¬ap = bp := fun hc => by
          rw [(natCmp_eq_iff ap bp).mpr hc] at h3; exact absurd h3 (by simp)
        simp [this]
      · have h3e := (natCmp_eq_iff ap bp).mp h3
        simp [h1e, h2e, h3e, prePartCmp_eq_iff]
      · simp only []
        have : ¬ap = bp := fun hc => by
          rw [(natCmp_eq_iff ap bp).mpr hc] at h3; exact absurd h3 (by simp)
        simp [this]
    · simp only []
      have : ¬an = bn := fun hc => by
        rw [(natCmp_eq_iff an bn).mpr hc] at h2; exact absurd h2 (by simp)
      simp [this]
  · simp only []
    have : ¬am = bm := fun hc => by
      rw [(natCmp_eq_iff am bm).mpr hc] at h1; exact absurd h1 (by simp)
    simp [this]

theorem NaiveDate.dateCmp_eq_iff (a b : NaiveDate) : NaiveDate.cmp a b = .eq ↔ a = b := by
  obtain ⟨ay, am, ad⟩ := a
  obtain ⟨by_, bm, bd⟩ := b
  rw [NaiveDate.cmp]
  simp only [NaiveDate.mk.injEq]
  cases h1 : intCmp ay by_
  · simp only []
    have : ¬ay = by_ := fun hc => by
      rw [(intCmp_eq_iff ay by_).mpr hc] at h1; exact absurd h1 (by simp)
    simp [this]
  · have h1e := (intCmp_eq_iff ay by_).mp h1
    cases h2 : natCmp am bm
    · simp only []
      have : ¬am = bm := fun hc => by
        rw [(natCmp_eq_iff am bm).mpr hc] at h2; exact absurd h2 (by simp)
      simp [this]
    · have h2e := (natCmp_eq_iff am bm).mp h2
      simp [h1e, h2e, natCmp_eq_iff]
    · simp only []
      have : ¬am = bm := fun hc => by
        rw [(natCmp_eq_iff am bm).mpr hc] at h2; exact absurd h2 (by simp)
      simp [this]
  · simp only []
    have : ¬ay = by_ := fun hc => by
      rw [(intCmp_eq_iff ay by_).mpr hc] at h1; exact absurd h1 (by simp)
    simp [this]

theorem Ordering.swap_eq_eq_iff (o : Ordering) : o.swap = .eq ↔ o = .eq := by
  cases o <;> simp [Ordering.swap]

theorem releaseCmpSpec_cons (c : SortReleasesBy) (rest : List SortReleasesBy)
    (a b : Release) :
    releaseCmpSpec (c :: rest) a b =
      match criterionCmpSpec c a b with
      | .eq => releaseCmpSpec rest a b
      | o => o := by
  rw [releaseCmpSpec, releaseCmpSpec, List.findSome?_cons]
  cases h : criterionCmpSpec c a b <;> simp [h]

/-- The release `v0.1.0` of the C4 scenario: no parseable date. -/
def rel010 : Release :=
  ⟨"v0.1.0", ⟨0, 1, 0, []⟩, none, ⟨none, []⟩⟩

/-- The release `v0.2.0` of the C4 scenario: dated 2023-01-01. -/
def rel020 : Release :=
  ⟨"v0.2.0", ⟨0, 2, 0, []⟩, some ⟨2023, 1, 1⟩, ⟨none, []⟩⟩

/-- Claim C4: the release comparator evaluates the configured criteria in
order, falls through on a criterion that reports "equal" (including a date
criterion where either side lacks a date), and falls back to
semantic-version descending when every criterion reports "equal"
(`releaseCmpSpec` states exactly this); under criteria `[date, version]` the
releases `v0.1.0` (no date) and `v0.2.0` (dated 2023-01-01) sort with
`v0.2.0` first. -/
theorem C4_release_sorting :
    (∀ (criteria : List SortReleasesBy) (a b : Release),
      releaseCmp criteria a b = releaseCmpSpec criteria a b)
    ∧ sort_releases [.date, .version] [rel010, rel020] = [rel020, rel010] := by
  constructor
  · intro criteria a b
    induction criteria with
    | nil =>
      rw [releaseCmp, releaseCmpSpec]
      simp [List.findSome?_nil]
    | cons c rest ih =>
      rw [releaseCmpSpec_cons]
      match c with
      | .version =>
        rw [releaseCmp]
        by_cases hv : a.version = b.version
        · have hbb : Version.cmp b.version b.version = .eq :=
            (Version.versionCmp_eq_iff _ _).mpr rfl
          simp [hv, criterionCmpSpec, hbb, Ordering.swap, ih]
        · have hne : Version.cmp a.version b.version ≠ .eq :=
            fun hc => hv ((Version.versionCmp_eq_iff _ _).mp hc)
          have hsw : (Version.cmp a.version b.version).swap ≠ .eq :=
            fun hc => hne ((Ordering.swap_eq_eq_iff _).mp hc)
          simp only [hv, if_false, criterionCmpSpec]
      | .date =>
        rw [releaseCmp]
        match hda : a.maybe_date, hdb : b.maybe_date with
        | none, _ =>
          simp [criterionCmpSpec, hda, ih]
        | some da, none =>
          simp [criterionCmpSpec, hda, hdb, ih]
        | some da, some db =>
          simp only [Option.isNone_some, Bool.or_self, if_false]
          by_cases hd : da = db
          · have hbb : NaiveDate.cmp db db = .eq := (NaiveDate.dateCmp_eq_iff _ _).mpr rfl
            simp [hd, criterionCmpSpec, hda, hdb, hbb, Ordering.swap, ih]
          · have hne : NaiveDate.cmp da db ≠ .eq :=
              fun hc => hd ((NaiveDate.dateCmp_eq_iff _ _).mp hc)
            have hsw : (NaiveDate.cmp da db).swap ≠ .eq :=
              fun hc => hne ((Ordering.swap_eq_eq_iff _).mp hc)
            have hd2 : (some da : Option NaiveDate) ≠ some db := by
              simp [hd]
            simp only [hd2, if_false, criterionCmpSpec, optDateCmp, hda, hdb]
            cases hc : (NaiveDate.cmp da db).swap <;> simp_all
  · rw [sort_releases]
    simp [List.mergeSort, releaseCmp, rel010, rel020, Version.cmp, natCmp,
      optDateCmp, prePartCmp, Ordering.swap]

/-! ## Claim C7 -/

/-- The leading run of decimal digits of a filename (specification side). -/
def leadingDigitRun (s : String) : List Char :=
  s.data.takeWhile isAsciiDigit

theorem findIdx?_eq_takeWhile_length (l : List Char)
    (h : ¬l.all isAsciiDigit = true) :
    l.findIdx? (fun c => !isAsciiDigit c) =
        some ((l.takeWhile isAsciiDigit).length)
      ∧ l.take ((l.takeWhile isAsciiDigit).length) = l.takeWhile isAsciiDigit := by
  induction l with
  | nil => exact absurd rfl h
  | cons c cs ih =>
    by_cases hc : isAsciiDigit c
    · have hcs : ¬cs.all isAsciiDigit = true := by
        intro hall
        exact h (by simp [List.all_cons, hc, hall])
      obtain ⟨ih1, ih2⟩ := ih hcs
      have htw : (c :: cs).takeWhile isAsciiDigit = c :: cs.takeWhile isAsciiDigit := by
        simp [List.takeWhile_cons, hc]
      constructor
      · rw [List.findIdx?_cons, List.findIdx?_succ, htw]
        simp [hc, ih1]
      · rw [htw]
        simp only [List.length_cons, List.take_succ_cons, ih2]
    · have htw : (c :: cs).takeWhile isAsciiDigit = [] := by
        simp [List.takeWhile_cons, hc]
      constructor
      · rw [List.findIdx?_cons, htw]
        simp [hc]
      · rw [htw]
        simp

/-- Claim C7, counterexample.  First conjunct pair: the filename
`"18446744073709551616.md"` begins with a digit run whose numeric value is
`2 ^ 64`, yet entry loading fails (`u64` overflow) instead of producing that
id, refuting "the loaded entry's id equals the numeric value of the leading
digit run" as stated for *every* digit-leading filename.  Second conjunct
pair: two different filenames with no leading digit produce the *same*
error value, so the parse error cannot carry the offending string. -/
theorem C7_counterexample :
    extract_entry_id "18446744073709551616.md" =
        .error (.invalidEntryNumber .posOverflow)
    ∧ digitsVal (leadingDigitRun "18446744073709551616.md") = 2 ^ 64
    ∧ extract_entry_id "no-number.md" = extract_entry_id "nope.md"
    ∧ "no-number.md" ≠ "nope.md" := by
  refine ⟨by decide, by decide, by decide, by decide⟩

/-- Claim C7, amended: for every filename that begins with one or more
decimal digits, is not all digits (it carries a remainder and extension),
and whose leading digit run has numeric value below `2 ^ 64`, the loaded id
is that value; for every filename whose first character is not a digit,
loading fails with the parse error `InvalidEntryNumber` for an empty digit
slice — which does not carry the offending string. -/
theorem C7_entry_id_extraction :
    ∀ s : String,
      ((s.data.takeWhile isAsciiDigit ≠ []) → (¬s.data.all isAsciiDigit = true) →
        (digitsVal (s.data.takeWhile isAsciiDigit) < 2 ^ 64) →
        extract_entry_id s = .ok (digitsVal (leadingDigitRun s)))
      ∧ (∀ c cs, s.data = c :: cs → isAsciiDigit c = false →
          extract_entry_id s = .error (.invalidEntryNumber .empty)) := by
  intro s
  constructor
  · intro h1 h2 h3
    obtain ⟨hidx, htake⟩ := findIdx?_eq_takeWhile_length s.data h2
    rw [extract_entry_id]
    simp only [hidx]
    rw [htake]
    have hall : (s.data.takeWhile isAsciiDigit).all isAsciiDigit = true := by
      rw [List.all_eq_true]
      intro x hx
      exact List.mem_takeWhile_imp hx
    rw [u64FromStr, leadingDigitRun]
    have h3l : digitsVal (List.takeWhile isAsciiDigit s.data) <
        18446744073709551616 := by
      have hpow : (18446744073709551616 : Nat) = 2 ^ 64 := by norm_num
      rw [hpow]
      exact h3
    simp [h1, hall, h3l]
  · intro c cs hdata hc
    rw [extract_entry_id, hdata]
    simp only [List.findIdx?_cons, hc, Bool.not_false, if_true, List.take_zero]
    rw [u64FromStr]
    simp

/-- Witness for `C7_entry_id_extraction` at `"830-x.md"` (id 830) and
`"no-number.md"` (empty-slice parse error). -/
theorem C7_entry_id_witness :
    extract_entry_id "830-x.md" = .ok 830
    ∧ extract_entry_id "no-number.md" = .error (.invalidEntryNumber .empty) := by
  constructor
  · have h := (C7_entry_id_extraction "830-x.md").1 (by decide) (by decide)
      (by decide)
    rw [h]
    decide
  · exact (C7_entry_id_extraction "no-number.md").2 'n' "o-number.md".data
      (by decide) (by decide)

/-! ## Claim C10 -/

/-- Claim C10 evaluated at its failing inputs: `extract_release_version`
uses the *character* position of the first digit as a *byte* index, so on
`"é1"` (first digit at char index 1, but byte index 1 is inside the
two-byte `é`) it panics, and on `"éé1"` (char index 2 happens to be a char
boundary — the middle of the prefix) it returns `"é1"` instead of the
suffix `"1"` beginning at the first digit.  The ASCII cases behave as the
claim describes. -/
theorem C10_version_extraction_bug :
    extract_release_version "é1" = .panics
    ∧ extract_release_version "éé1" = .ok "é1"
    ∧ extract_release_version "v0.1.0" = .ok "0.1.0"
    ∧ extract_release_version "no-version" =
        .err (.cannotExtractVersion "no-version") := by
  refine ⟨by decide, by decide, by decide, by decide⟩

/-! ## Claim C6 -/

/-- A filesystem on which every directory listing fails with the same
underlying cause. -/
def fsAllErr : FsModel := fun _ => .error ⟨7⟩

/-- The identity-ish filter used in the C6 theorems (keeps every entry). -/
def keepAllFilter : DirEntry → Option (Except Error String) :=
  fun e => some (.ok e.path)

/-- Claim C6, counterexample: listing two *different* directories, each
failing with the same underlying cause, produces *identical* error values —
so the typed I/O failure produced by `read_and_filter_dir` (the `Error::Io`
variant of `error.rs`, which wraps only the `std::io::Error`) cannot carry
the offending path. -/
theorem C6_counterexample :
    read_and_filter_dir fsAllErr "a" keepAllFilter =
        read_and_filter_dir fsAllErr "b" keepAllFilter
    ∧ read_and_filter_dir fsAllErr "a" keepAllFilter = .error (.io ⟨7⟩)
    ∧ ("a" : String) ≠ "b" := by
  refine ⟨by decide, by decide, by decide⟩

theorem collectResults_append_oks (x : Error) (l2 : List (Except Error String)) :
    ∀ l1 : List (Except Error String), (∀ y ∈ l1, ∃ v, y = .ok v) →
      collectResults (l1 ++ .error x :: l2) = .error x := by
  intro l1
  induction l1 with
  | nil =>
    intro _
    rw [List.nil_append, collectResults]
  | cons y ys ih =>
    intro hok
    obtain ⟨v, hv⟩ := hok y (by simp)
    subst hv
    rw [List.cons_append, collectResults, ih (fun z hz => hok z (by simp [hz]))]

/-- Claim C6, amended: every filesystem error encountered by
`read_and_filter_dir` surfaces as the typed failure `Error::Io` wrapping the
underlying cause — the listing failure directly, and a per-entry failure as
the first error once the entries before it pass the filter cleanly; the
`Io` variant does not record the offending path. -/
theorem C6_io_error_propagation :
    ∀ (fs : FsModel) (path : String)
      (filter : DirEntry → Option (Except Error String)),
      (∀ e, fs path = .error e →
        read_and_filter_dir fs path filter = .error (.io e))
      ∧ (∀ (pre post : List DirEntryResult) (e : IoError),
          fs path = .ok (pre ++ .err e :: post) →
          (∀ r ∈ pre, ∃ d, r = .ok d ∧
            (filter d = none ∨ ∃ v, filter d = some (.ok v))) →
          read_and_filter_dir fs path filter = .error (.io e)) := by
  intro fs path filter
  constructor
  · intro e he
    rw [read_and_filter_dir]
    simp only [he]
  · intro pre post e hfs hpre
    rw [read_and_filter_dir]
    simp only [hfs]
    rw [List.filterMap_append]
    have hcons : List.filterMap (fun r =>
        match r with
        | .ok e => filter e
        | .err e => some (.error (.io e))) (DirEntryResult.err e :: post) =
        .error (.io e) :: List.filterMap (fun r =>
          match r with
          | .ok e => filter e
          | .err e => some (.error (.io e))) post := by
      rw [List.filterMap_cons]
    rw [hcons]
    apply collectResults_append_oks
    intro y hy
    rw [List.mem_filterMap] at hy
    obtain ⟨r, hr, hfr⟩ := hy
    obtain ⟨d, hd, hfd⟩ := hpre r hr
    subst hd
    replace hfr : filter d = some y := hfr
    rcases hfd with hnone | ⟨v, hv⟩
    · rw [hnone] at hfr
      exact absurd hfr (by simp)
    · rw [hv] at hfr
      simp only [Option.some.injEq] at hfr
      exact ⟨v, hfr.symm⟩

/-- A filesystem with one good entry followed by a failing entry, used to
witness `C6_io_error_propagation`. -/
def fsOneErr : FsModel :=
  fun _ => .ok [.ok ⟨"1-a.md"⟩, .err ⟨3⟩]

/-- Witness for `C6_io_error_propagation`: a failed listing and a failed
entry both surface as `Error::Io` with the underlying cause. -/
theorem C6_io_error_witness :
    read_and_filter_dir fsAllErr "dir" keepAllFilter = .error (.io ⟨7⟩)
    ∧ read_and_filter_dir fsOneErr "dir" keepAllFilter = .error (.io ⟨3⟩) :=
  ⟨(C6_io_error_propagation fsAllErr "dir" keepAllFilter).1 ⟨7⟩ rfl,
    (C6_io_error_propagation fsOneErr "dir" keepAllFilter).2
      [.ok ⟨"1-a.md"⟩] [] ⟨3⟩ rfl
      (by
        intro r hr
        simp only [List.mem_singleton] at hr
        subst hr
        exact ⟨⟨"1-a.md"⟩, rfl, Or.inr ⟨"1-a.md", rfl⟩⟩)⟩

/-! ## Claim C1 -/

/-- The sequence of entries whose text `ChangeSetSection::render` emits, in
order: general entries first (as-is, or under the "General" sub-heading),
then each component section's entries (every component section is rendered,
an empty one contributing no entries). -/
def ChangeSetSection.renderEntries (s : ChangeSetSection) : List Entry :=
  if s.component_sections.isEmpty then s.entries
  else s.entries ++ s.component_sections.flatMap (fun c => c.entries)

/-- The sequence of entries `ChangeSet::render` emits: the non-empty
sections in order. -/
def ChangeSet.renderEntries (cs : ChangeSet) : List Entry :=
  (cs.sections.filter (fun s => !s.is_empty)).flatMap
    ChangeSetSection.renderEntries

/-- The sequence of entries `Release::render` emits: the change set body
when it is non-empty. -/
def Release.renderEntries (r : Release) : List Entry :=
  if !r.changes.is_empty then r.changes.renderEntries else []

/-- The sequence of entries the render pipeline (`Changelog::render`) emits,
in render order: nothing for an empty changelog, otherwise the unreleased
block (when requested, present and non-empty) followed by each release, in
order. -/
def Changelog.renderEntries (cl : Changelog) (render_unreleased : Bool) :
    List Entry :=
  if cl.is_empty then []
  else
    (if render_unreleased then
      match cl.maybe_unreleased with
      | some u => if !u.is_empty then u.renderEntries else []
      | none => []
    else []) ++ cl.releases.flatMap Release.renderEntries

/-- The entry of the C1 failing input, rendered but never yielded. -/
def entryB : Entry := ⟨1, "- B entry"⟩

/-- A release whose change set has an empty first section (sorted title
"AAA") followed by a non-empty one ("BBB"). -/
def relLeadingEmpty : Release :=
  ⟨"v0.1.0", ⟨0, 1, 0, []⟩, none,
    ⟨none, [⟨"aaa", "AAA", [], []⟩, ⟨"bbb", "BBB", [entryB], []⟩]⟩⟩

/-- The C1 failing input: a changelog with no unreleased change set and one
release whose first section is empty. -/
def clLeadingEmpty : Changelog :=
  ⟨none, [relLeadingEmpty], none, none⟩

/-- Claim C1 evaluated at the failing input: because
`ChangeSetIter::new` requires an iterator for the *first* section
(`ChangeSetSectionIter::new(first_section)?`) and `ReleasesIter::new`
requires one for the *first* release, an empty first section terminates the
walk: `entries()` yields nothing, while the render pipeline emits the entry
of the second section (its text appears in the rendered document).  This
contradicts both "yields exactly the entries the render pipeline would
include" and "an empty section ... is skipped without terminating the
walk", as well as the doc comment of `Changelog::entries` itself. -/
theorem C1_empty_first_section_kills_walk :
    Changelog.entries clLeadingEmpty = []
    ∧ Changelog.renderEntries clLeadingEmpty true = [entryB]
    ∧ entryB.details.data <:+:
        (Changelog.render_all clLeadingEmpty Config.default).data
    ∧ (Changelog.entries clLeadingEmpty).map EntryPath.entry ≠
        Changelog.renderEntries clLeadingEmpty true := by
  have h1 : Changelog.entries clLeadingEmpty = [] := by
    rw [Changelog.entries_eq]
    simp [clLeadingEmpty, relLeadingEmpty, changeSetIterAdmits, sectionAdmits]
  refine ⟨h1, by decide, by decide, ?_⟩
  rw [h1]
  decide

/-! ## Claim C2 -/

/-- The change-set-level part of an entry path (common to the unreleased
and released variants). -/
def EntryPath.changeSetPath (p : EntryPath) : EntryChangeSetPath :=
  match p.release_path with
  | .unreleased q => q
  | .released _ q => q

/-- The release-level branch choice of an entry path: `none` for
unreleased, `some r` for the release `r`. -/
def EntryPath.releaseChoice (p : EntryPath) : Option Release :=
  match p.release_path with
  | .unreleased _ => none
  | .released r _ => some r

/-- The component-level branch choice of an entry path: `none` for a
general entry, `some c` for the component section `c`. -/
def EntryPath.componentChoice (p : EntryPath) : Option ComponentSection :=
  match p.changeSetPath.section_path.component_path with
  | .general _ => none
  | .component c _ => some c

/-- "Same branch choice at every level and same terminal entry": the
changelog, the unreleased-versus-release choice, the change set, the
section, the general-versus-component choice and the terminal entry all
match (componentwise value equality, which is what the Rust `==` on the
borrowed path types compares). -/
def sameBranches (p q : EntryPath) : Prop :=
  p.changelog = q.changelog
  ∧ p.releaseChoice = q.releaseChoice
  ∧ p.changeSetPath.change_set = q.changeSetPath.change_set
  ∧ p.changeSetPath.section_path.change_set_section =
      q.changeSetPath.section_path.change_set_section
  ∧ p.componentChoice = q.componentChoice
  ∧ p.entry = q.entry

/-- A position of an entry inside a changelog: which change set (unreleased
or the i-th release), which section, general or which component section,
and which entry slot. -/
structure EntryPos where
  release : Option Nat
  sec : Nat
  comp : Option Nat
  entry : Nat
deriving DecidableEq, Repr

/-- The entry path addressed by a position inside a change set. -/
def changeSetPathAt (cs : ChangeSet) (pos : EntryPos) :
    Option EntryChangeSetPath :=
  match cs.sections[pos.sec]? with
  | none => none
  | some s =>
    match pos.comp with
    | none =>
      match s.entries[pos.entry]? with
      | none => none
      | some e => some ⟨cs, s, .general e⟩
    | some j =>
      match s.component_sections[j]? with
      | none => none
      | some c =>
        match c.entries[pos.entry]? with
        | none => none
        | some e => some ⟨cs, s, .component c e⟩

/-- The entry path addressed by a position inside a changelog. -/
def Changelog.pathAt (cl : Changelog) (pos : EntryPos) : Option EntryPath :=
  match pos.release with
  | none =>
    match cl.maybe_unreleased with
    | none => none
    | some u => (changeSetPathAt u pos).map (fun p => ⟨cl, .unreleased p⟩)
  | some i =>
    match cl.releases[i]? with
    | none => none
    | some r =>
      (changeSetPathAt r.changes pos).map (fun p => ⟨cl, .released r p⟩)

/-- The change sets of a changelog (unreleased plus each release's). -/
def changeSetsOf (cl : Changelog) : List ChangeSet :=
  cl.maybe_unreleased.toList ++ cl.releases.map (fun r => r.changes)

/-- Distinct positions carry distinct identifying values: release ids are
pairwise distinct, section ids within each change set are pairwise
distinct, component ids within each section are pairwise distinct, and the
entry lists contain no duplicate entry values.  Changelogs loaded from a
directory satisfy the id conditions automatically (directory names are
unique); entry distinctness can fail only when two files in one directory
have the same id and the same contents. -/
def goodShape (cl : Changelog) : Prop :=
  (cl.releases.map (fun r => r.id)).Nodup
  ∧ ∀ cs ∈ changeSetsOf cl,
      (cs.sections.map (fun s => s.id)).Nodup
      ∧ ∀ s ∈ cs.sections,
          (s.component_sections.map (fun c => c.id)).Nodup
          ∧ s.entries.Nodup
          ∧ ∀ c ∈ s.component_sections, c.entries.Nodup

instance (cl : Changelog) : Decidable (goodShape cl) := by
  rw [goodShape]
  infer_instance

/-- The duplicated release used by the C2 and C3 counterexamples. -/
def relDup : Release :=
  ⟨"v0.1.0", ⟨0, 1, 0, []⟩, none, ⟨none, [⟨"bbb", "BBB", [⟨1, "- A"⟩], []⟩]⟩⟩

/-- A changelog holding the *same release value twice* — expressible in the
model (and in Rust, where `Changelog` is a plain public struct).  Distinct
positions inside it address value-identical paths. -/
def clDup : Changelog :=
  ⟨none, [relDup, relDup], none, none⟩

/-- Claim C2, counterexample: in `clDup` the positions "release 0, section
0, general entry 0" and "release 1, section 0, general entry 0" are
distinct, yet they address *equal* entry paths, because path equality (the
derived `PartialEq` over borrowed references) compares the referenced
values, not the positions.  "Two paths addressing distinct entry positions
are never equal" is therefore false as stated. -/
theorem C2_counterexample :
    Changelog.pathAt clDup ⟨some 0, 0, none, 0⟩ =
        Changelog.pathAt clDup ⟨some 1, 0, none, 0⟩
    ∧ (Changelog.pathAt clDup ⟨some 0, 0, none, 0⟩).isSome = true
    ∧ (⟨some 0, 0, none, 0⟩ : EntryPos) ≠ ⟨some 1, 0, none, 0⟩ := by
  refine ⟨by decide, by decide, by decide⟩

theorem nodup_getElem?_ne {α : Type} {l : List α} (h : l.Nodup) {i j : Nat}
    (hij : i ≠ j) {a b : α} (ha : l[i]? = some a) (hb : l[j]? = some b) :
    a ≠ b := by
  obtain ⟨hi, hga⟩ := List.getElem?_eq_some.mp ha
  obtain ⟨hj, hgb⟩ := List.getElem?_eq_some.mp hb
  intro hab
  apply hij
  subst hga hgb
  exact (List.Nodup.getElem_inj_iff h).mp hab

theorem nodup_map_getElem?_ne {α β : Type} (f : α → β) {l : List α}
    (h : (l.map f).Nodup) {i j : Nat} (hij : i ≠ j) {a b : α}
    (ha : l[i]? = some a) (hb : l[j]? = some b) : f a ≠ f b := by
  apply nodup_getElem?_ne h hij (a := f a) (b := f b)
  · rw [List.getElem?_map, ha]
    rfl
  · rw [List.getElem?_map, hb]
    rfl

/-- The section recorded by a change-set-level entry path. -/
def ecsSection (q : EntryChangeSetPath) : ChangeSetSection :=
  q.section_path.change_set_section

/-- The component choice recorded by a change-set-level entry path. -/
def ecsComp (q : EntryChangeSetPath) : Option ComponentSection :=
  match q.section_path.component_path with
  | .general _ => none
  | .component c _ => some c

theorem changeSetPathAt_inj (cs : ChangeSet)
    (hsecs : (cs.sections.map (fun s => s.id)).Nodup)
    (hrest : ∀ s ∈ cs.sections,
      (s.component_sections.map (fun c => c.id)).Nodup ∧ s.entries.Nodup ∧
        ∀ c ∈ s.component_sections, c.entries.Nodup)
    (pos1 pos2 : EntryPos) (q : EntryChangeSetPath)
    (h1 : changeSetPathAt cs pos1 = some q)
    (h2 : changeSetPathAt cs pos2 = some q) :
    pos1.sec = pos2.sec ∧ pos1.comp = pos2.comp ∧ pos1.entry = pos2.entry := by
  rw [changeSetPathAt] at h1 h2
  match hs1 : cs.sections[pos1.sec]? with
  | none => simp only [hs1] at h1; exact absurd h1 (by simp)
  | some s1 =>
  match hs2 : cs.sections[pos2.sec]? with
  | none => simp only [hs2] at h2; exact absurd h2 (by simp)
  | some s2 =>
  simp only [hs1] at h1
  simp only [hs2] at h2
  match hc1 : pos1.comp with
  | none =>
    simp only [hc1] at h1
    match he1 : s1.entries[pos1.entry]? with
    | none => simp only [he1] at h1; exact absurd h1 (by simp)
    | some e1 =>
    simp only [he1, Option.some.injEq] at h1
    match hc2 : pos2.comp with
    | none =>
      simp only [hc2] at h2
      match he2 : s2.entries[pos2.entry]? with
      | none => simp only [he2] at h2; exact absurd h2 (by simp)
      | some e2 =>
      simp only [he2, Option.some.injEq] at h2
      have hval := h1.trans h2.symm
      have hss : s1 = s2 := congrArg ecsSection hval
      have hee : e1 = e2 := congrArg EntryChangeSetPath.entry hval
      have hsec : pos1.sec = pos2.sec := by
        by_contra hne
        exact nodup_map_getElem?_ne (fun s => s.id) hsecs hne hs1 hs2
          (by rw [hss])
      subst hss
      obtain ⟨-, hents, -⟩ := hrest s1 (List.getElem?_mem hs1)
      refine ⟨hsec, rfl, ?_⟩
      by_contra hne
      exact nodup_getElem?_ne hents hne he1 he2 hee
    | some j2 =>
      simp only [hc2] at h2
      match hcc2 : s2.component_sections[j2]? with
      | none => simp only [hcc2] at h2; exact absurd h2 (by simp)
      | some c2 =>
      match he2 : c2.entries[pos2.entry]? with
      | none => simp only [hcc2, he2] at h2; exact absurd h2 (by simp)
      | some e2 =>
      simp only [hcc2, he2, Option.some.injEq] at h2
      have hval := h1.trans h2.symm
      have : (none : Option ComponentSection) = some c2 := congrArg ecsComp hval
      exact absurd this (by simp)
  | some j1 =>
    simp only [hc1] at h1
    match hcc1 : s1.component_sections[j1]? with
    | none => simp only [hcc1] at h1; exact absurd h1 (by simp)
    | some c1 =>
    match he1 : c1.entries[pos1.entry]? with
    | none => simp only [hcc1, he1] at h1; exact absurd h1 (by simp)
    | some e1 =>
    simp only [hcc1, he1, Option.some.injEq] at h1
    match hc2 : pos2.comp with
    | none =>
      simp only [hc2] at h2
      match he2 : s2.entries[pos2.entry]? with
      | none => simp only [he2] at h2; exact absurd h2 (by simp)
      | some e2 =>
      simp only [he2, Option.some.injEq] at h2
      have hval := h1.trans h2.symm
      have : some c1 = (none : Option ComponentSection) := congrArg ecsComp hval
      exact absurd this (by simp)
    | some j2 =>
      simp only [hc2] at h2
      match hcc2 : s2.component_sections[j2]? with
      | none => simp only [hcc2] at h2; exact absurd h2 (by simp)
      | some c2 =>
      match he2 : c2.entries[pos2.entry]? with
      | none => simp only [hcc2, he2] at h2; exact absurd h2 (by simp)
      | some e2 =>
      simp only [hcc2, he2, Option.some.injEq] at h2
      have hval := h1.trans h2.symm
      have hss : s1 = s2 := congrArg ecsSection hval
      have hcc : some c1 = some c2 := congrArg ecsComp hval
      have hee : e1 = e2 := congrArg EntryChangeSetPath.entry hval
      simp only [Option.some.injEq] at hcc
      have hsec : pos1.sec = pos2.sec := by
        by_contra hne
        exact nodup_map_getElem?_ne (fun s => s.id) hsecs hne hs1 hs2
          (by rw [hss])
      subst hss
      obtain ⟨hcomps, -, hcents⟩ := hrest s1 (List.getElem?_mem hs1)
      have hjj : j1 = j2 := by
        by_contra hne
        exact nodup_map_getElem?_ne (fun c => c.id) hcomps hne hcc1 hcc2
          (by rw [hcc])
      subst hjj
      have hc1c2 : c1 = c2 := by
        have := hcc1.symm.trans hcc2
        simpa using this
      subst hc1c2
      refine ⟨hsec, rfl, ?_⟩
      by_contra hne
      exact nodup_getElem?_ne (hcents c1 (List.getElem?_mem hcc1)) hne he1 he2 hee

/-- Rebuilding an entry path from its branch choices and terminal entry. -/
def rebuildPath (cl : Changelog) (rc : Option Release) (cs : ChangeSet)
    (s : ChangeSetSection) (cc : Option ComponentSection) (e : Entry) :
    EntryPath :=
  let cp : ChangeSetComponentPath :=
    match cc with
    | none => .general e
    | some c => .component c e
  match rc with
  | none => ⟨cl, .unreleased ⟨cs, s, cp⟩⟩
  | some r => ⟨cl, .released r ⟨cs, s, cp⟩⟩

theorem rebuildPath_self (p : EntryPath) :
    rebuildPath p.changelog p.releaseChoice p.changeSetPath.change_set
      p.changeSetPath.section_path.change_set_section p.componentChoice
      p.entry = p := by
  obtain ⟨cl, rp⟩ := p
  cases rp with
  | unreleased q =>
    obtain ⟨cs, sp⟩ := q
    obtain ⟨s, cp⟩ := sp
    cases cp <;> rfl
  | released r q =>
    obtain ⟨cs, sp⟩ := q
    obtain ⟨s, cp⟩ := sp
    cases cp <;> rfl

/-- Claim C2, amended: two entry paths are equal iff every branch choice
(changelog, unreleased-versus-release, change set, section,
general-versus-component) and the terminal entry agree — as *values*, which
is what the Rust `==` over borrowed references compares; and two paths
addressing distinct positions are never equal *provided* distinct positions
carry distinct identifying values (`goodShape`, satisfied by loaded
changelogs whose entry files are pairwise distinct) — without that proviso
`C2_counterexample` shows distinct positions with equal paths. -/
theorem C2_path_equality :
    (∀ p q : EntryPath, p = q ↔ sameBranches p q)
    ∧ (∀ (cl : Changelog) (pos1 pos2 : EntryPos) (p1 p2 : EntryPath),
        goodShape cl → cl.pathAt pos1 = some p1 → cl.pathAt pos2 = some p2 →
        pos1 ≠ pos2 → p1 ≠ p2) := by
  constructor
  · intro p q
    constructor
    · intro h
      subst h
      exact ⟨rfl, rfl, rfl, rfl, rfl, rfl⟩
    · intro h
      obtain ⟨hcl, hrel, hcs, hsec, hcomp, hent⟩ := h
      rw [← rebuildPath_self p, ← rebuildPath_self q, hcl, hrel, hcs, hsec,
        hcomp, hent]
  · intro cl pos1 pos2 p1 p2 hgs h1 h2 hne hpp
    subst hpp
    obtain ⟨hrelids, hcss⟩ := hgs
    obtain ⟨r1f, s1f, c1f, e1f⟩ := pos1
    obtain ⟨r2f, s2f, c2f, e2f⟩ := pos2
    rw [Changelog.pathAt] at h1 h2
    match hr1 : r1f, hr2 : r2f with
    | none, none =>
      simp only at h1 h2
      match hu : cl.maybe_unreleased with
      | none => simp only [hu] at h1; exact absurd h1 (by simp)
      | some u =>
      simp only [hu] at h1 h2
      obtain ⟨q1, hq1, hw1⟩ := Option.map_eq_some'.mp h1
      obtain ⟨q2, hq2, hw2⟩ := Option.map_eq_some'.mp h2
      have hq : q1 = q2 := by
        have := hw1.trans hw2.symm
        simpa using this
      subst hq
      have humem : u ∈ changeSetsOf cl := by
        rw [changeSetsOf, hu]
        simp
      obtain ⟨hsecs, hrest⟩ := hcss u humem
      obtain ⟨hsec, hcomp, hent⟩ :=
        changeSetPathAt_inj u hsecs hrest ⟨none, s1f, c1f, e1f⟩
          ⟨none, s2f, c2f, e2f⟩ q1 hq1 hq2
      simp only at hsec hcomp hent
      exact hne (by rw [hsec, hcomp, hent])
    | none, some i2 =>
      simp only at h1 h2
      match hu : cl.maybe_unreleased with
      | none => simp only [hu] at h1; exact absurd h1 (by simp)
      | some u =>
      simp only [hu] at h1
      match hri : cl.releases[i2]? with
      | none => simp only [hri] at h2; exact absurd h2 (by simp)
      | some r2 =>
      simp only [hri] at h2
      obtain ⟨q1, hq1, hw1⟩ := Option.map_eq_some'.mp h1
      obtain ⟨q2, hq2, hw2⟩ := Option.map_eq_some'.mp h2
      have := congrArg EntryPath.releaseChoice (hw1.trans hw2.symm)
      exact absurd this (by simp [EntryPath.releaseChoice])
    | some i1, none =>
      simp only at h1 h2
      match hri : cl.releases[i1]? with
      | none => simp only [hri] at h1; exact absurd h1 (by simp)
      | some r1 =>
      simp only [hri] at h1
      match hu : cl.maybe_unreleased with
      | none => simp only [hu] at h2; exact absurd h2 (by simp)
      | some u =>
      simp only [hu] at h2
      obtain ⟨q1, hq1, hw1⟩ := Option.map_eq_some'.mp h1
      obtain ⟨q2, hq2, hw2⟩ := Option.map_eq_some'.mp h2
      have := congrArg EntryPath.releaseChoice (hw1.trans hw2.symm)
      exact absurd this (by simp [EntryPath.releaseChoice])
    | some i1, some i2 =>
      simp only at h1 h2
      match hri1 : cl.releases[i1]? with
      | none => simp only [hri1] at h1; exact absurd h1 (by simp)
      | some r1 =>
      simp only [hri1] at h1
      match hri2 : cl.releases[i2]? with
      | none => simp only [hri2] at h2; exact absurd h2 (by simp)
      | some r2 =>
      simp only [hri2] at h2
      obtain ⟨q1, hq1, hw1⟩ := Option.map_eq_some'.mp h1
      obtain ⟨q2, hq2, hw2⟩ := Option.map_eq_some'.mp h2
      have hval := hw1.trans hw2.symm
      have hrr : r1 = r2 := by
        have := congrArg EntryPath.releaseChoice hval
        simpa [EntryPath.releaseChoice] using this
      have hii : i1 = i2 := by
        by_contra hne2
        exact nodup_map_getElem?_ne (fun r => r.id) hrelids hne2 hri1 hri2
          (by rw [hrr])
      subst hrr
      have hq : q1 = q2 := by
        have := congrArg EntryPath.changeSetPath hval
        simpa [EntryPath.changeSetPath] using this
      subst hq
      have hmem : r1.changes ∈ changeSetsOf cl := by
        rw [changeSetsOf]
        refine List.mem_append_right _ ?_
        exact List.mem_map_of_mem _ (List.getElem?_mem hri1)
      obtain ⟨hsecs, hrest⟩ := hcss r1.changes hmem
      obtain ⟨hsec, hcomp, hent⟩ :=
        changeSetPathAt_inj r1.changes hsecs hrest ⟨some i1, s1f, c1f, e1f⟩
          ⟨some i2, s2f, c2f, e2f⟩ q1 hq1 hq2
      simp only at hsec hcomp hent
      exact hne (by rw [hii, hsec, hcomp, hent])

/-- The section and release used by the C2 witness. -/
def secTwo : ChangeSetSection :=
  ⟨"bbb", "BBB", [⟨1, "- A"⟩, ⟨2, "- B"⟩], []⟩

/-- A well-shaped release with two distinct entries. -/
def relTwo : Release :=
  ⟨"v0.1.0", ⟨0, 1, 0, []⟩, none, ⟨none, [secTwo]⟩⟩

/-- Witness for `C2_path_equality`: in a well-shaped one-release changelog
with two distinct entries, the paths addressed by the two general-entry
positions are distinct. -/
theorem C2_path_equality_witness :
    (⟨⟨none, [relTwo], none, none⟩,
        .released relTwo ⟨relTwo.changes, secTwo, .general ⟨1, "- A"⟩⟩⟩ :
      EntryPath) ≠
      ⟨⟨none, [relTwo], none, none⟩,
        .released relTwo ⟨relTwo.changes, secTwo, .general ⟨2, "- B"⟩⟩⟩ :=
  C2_path_equality.2 ⟨none, [relTwo], none, none⟩
    ⟨some 0, 0, none, 0⟩ ⟨some 0, 0, none, 1⟩
    ⟨⟨none, [relTwo], none, none⟩,
      .released relTwo ⟨relTwo.changes, secTwo, .general ⟨1, "- A"⟩⟩⟩
    ⟨⟨none, [relTwo], none, none⟩,
      .released relTwo ⟨relTwo.changes, secTwo, .general ⟨2, "- B"⟩⟩⟩
    (by decide) (by decide) (by decide) (by decide)

/-! ## Claim C3 -/

/-- The inner `for path_b in self.entries()` loop of
`Changelog::find_duplicates_across_releases` (`changelog.rs`) for a fixed
`path_a`: skip `path_b == path_a`; when the entries match and `(a, b)` has
not been seen, push `(a, b)` and record both orientations in the seen-set
(the `HashSet` is modelled as a list used only through membership). -/
def dupInner (a : EntryPath) : List EntryPath →
    List (EntryPath × EntryPath) → List (EntryPath × EntryPath) →
    (List (EntryPath × EntryPath) × List (EntryPath × EntryPath))
  | [], dups, found => (dups, found)
  | b :: bs, dups, found =>
    if a = b then dupInner a bs dups found
    else if a.entry = b.entry ∧ (a, b) ∉ found then
      dupInner a bs (dups ++ [(a, b)]) ((b, a) :: (a, b) :: found)
    else dupInner a bs dups found

/-- The outer `for path_a in self.entries()` loop of
`Changelog::find_duplicates_across_releases`. -/
def dupOuter : List EntryPath → List EntryPath →
    List (EntryPath × EntryPath) → List (EntryPath × EntryPath) →
    (List (EntryPath × EntryPath) × List (EntryPath × EntryPath))
  | [], _, dups, found => (dups, found)
  | a :: as, all, dups, found =>
    let r := dupInner a all dups found
    dupOuter as all r.1 r.2

/-- `Changelog::find_duplicates_across_releases` (`changelog.rs`). -/
def Changelog.find_duplicates_across_releases (cl : Changelog) :
    List (EntryPath × EntryPath) :=
  (dupOuter cl.entries cl.entries [] []).1

/-- Specification-side duplicate list: walking the yielded paths in order,
pair each path with every *later* path of identical entry content. -/
def specDuplicates : List EntryPath → List (EntryPath × EntryPath)
  | [] => []
  | a :: rest =>
    (rest.filter (fun b => a.entry = b.entry)).map (fun b => (a, b)) ++
      specDuplicates rest

theorem dupInner_eq (a : EntryPath) :
    ∀ (bs : List EntryPath) (dups found : List (EntryPath × EntryPath)),
      bs.Nodup →
      (dupInner a bs dups found).1 =
        dups ++ (bs.filter (fun b =>
          b ≠ a ∧ a.entry = b.entry ∧ (a, b) ∉ found)).map (fun b => (a, b))
      ∧ (∀ p, p ∈ (dupInner a bs dups found).2 ↔
          p ∈ found ∨ ∃ b ∈ bs, b ≠ a ∧ a.entry = b.entry ∧ (a, b) ∉ found ∧
            (p = (a, b) ∨ p = (b, a))) := by
  intro bs
  induction bs with
  | nil =>
    intro dups found _
    constructor
    · simp [dupInner]
    · intro p
      simp [dupInner]
  | cons b bs ih =>
    intro dups found hnd
    have hbnotin : b ∉ bs := (List.nodup_cons.mp hnd).1
    have hbsnd : bs.Nodup := (List.nodup_cons.mp hnd).2
    rw [dupInner]
    by_cases hab : a = b
    · subst hab
      rw [if_pos rfl]
      obtain ⟨ih1, ih2⟩ := ih dups found hbsnd
      constructor
      · rw [ih1, List.filter_cons_of_neg (by simp)]
      · intro p
        rw [ih2 p]
        constructor
        · rintro (hp | ⟨x, hx, hxa, hee, hnf, hor⟩)
          · exact Or.inl hp
          · exact Or.inr ⟨x, List.mem_cons_of_mem _ hx, hxa, hee, hnf, hor⟩
        · rintro (hp | ⟨x, hx, hxa, hee, hnf, hor⟩)
          · exact Or.inl hp
          · rcases List.mem_cons.mp hx with hxb | hxbs
            · exact absurd hxb.symm (by exact fun h => hxa h.symm)
            · exact Or.inr ⟨x, hxbs, hxa, hee, hnf, hor⟩
    · rw [if_neg hab]
      by_cases hcond : a.entry = b.entry ∧ (a, b) ∉ found
      · rw [if_pos hcond]
        obtain ⟨ih1, ih2⟩ :=
          ih (dups ++ [(a, b)]) ((b, a) :: (a, b) :: found) hbsnd
        have hfiltereq : bs.filter (fun x =>
              x ≠ a ∧ a.entry = x.entry ∧ (a, x) ∉ (b, a) :: (a, b) :: found) =
            bs.filter (fun x =>
              x ≠ a ∧ a.entry = x.entry ∧ (a, x) ∉ found) := by
          apply List.filter_congr
          intro x hx
          have hxb : x ≠ b := fun h => hbnotin (h ▸ hx)
          by_cases hxa : x = a
          · simp [hxa]
          · have : ((a, x) ∈ (b, a) :: (a, b) :: found) ↔ (a, x) ∈ found := by
              simp only [List.mem_cons]
              constructor
              · rintro (h | h | h)
                · exact absurd (congrArg Prod.fst h) hab
                · exact absurd (congrArg Prod.snd h) hxb
                · exact h
              · intro h
                exact Or.inr (Or.inr h)
            simp [hxa, this]
        constructor
        · rw [ih1, hfiltereq, List.filter_cons_of_pos
            (by
              simp only [decide_eq_true_eq]
              exact ⟨fun h => hab h.symm, hcond.1, hcond.2⟩)]
          simp
        · intro p
          rw [ih2 p]
          constructor
          · rintro (hp | ⟨x, hx, hxa, hee, hnf, hor⟩)
            · rcases List.mem_cons.mp hp with h | hp2
              · exact Or.inr ⟨b, List.mem_cons_self b bs,
                  fun h2 => hab h2.symm, hcond.1, hcond.2, Or.inr h⟩
              rcases List.mem_cons.mp hp2 with h | hp3
              · exact Or.inr ⟨b, List.mem_cons_self b bs,
                  fun h2 => hab h2.symm, hcond.1, hcond.2, Or.inl h⟩
              · exact Or.inl hp3
            · have hxb : x ≠ b := fun h => hbnotin (h ▸ hx)
              have hnf2 : (a, x) ∉ found := by
                intro h
                exact hnf (by simp [h])
              exact Or.inr ⟨x, List.mem_cons_of_mem _ hx, hxa, hee, hnf2, hor⟩
          · rintro (hp | ⟨x, hx, hxa, hee, hnf, hor⟩)
            · exact Or.inl (by simp [hp])
            · rcases List.mem_cons.mp hx with hxb | hxbs
              · subst hxb
                rcases hor with h | h
                · exact Or.inl (by simp [h])
                · exact Or.inl (by simp [h])
              · have hxb : x ≠ b := fun h => hbnotin (h ▸ hxbs)
                have hnf2 : (a, x) ∉ (b, a) :: (a, b) :: found := by
                  intro h
                  rcases List.mem_cons.mp h with h2 | h2
                  · exact hab (congrArg Prod.fst h2)
                  rcases List.mem_cons.mp h2 with h3 | h3
                  · exact hxb (congrArg Prod.snd h3)
                  · exact hnf h3
                exact Or.inr ⟨x, hxbs, hxa, hee, hnf2, hor⟩
      · rw [if_neg hcond]
        obtain ⟨ih1, ih2⟩ := ih dups found hbsnd
        have hbfail : ¬(b ≠ a ∧ a.entry = b.entry ∧ (a, b) ∉ found) := by
          intro ⟨h1, h2, h3⟩
          exact hcond ⟨h2, h3⟩
        constructor
        · rw [ih1, List.filter_cons_of_neg (by simpa using hbfail)]
        · intro p
          rw [ih2 p]
          constructor
          · rintro (hp | ⟨x, hx, hxa, hee, hnf, hor⟩)
            · exact Or.inl hp
            · exact Or.inr ⟨x, List.mem_cons_of_mem _ hx, hxa, hee, hnf, hor⟩
          · rintro (hp | ⟨x, hx, hxa, hee, hnf, hor⟩)
            · exact Or.inl hp
            · rcases List.mem_cons.mp hx with hxb | hxbs
              · subst hxb
                exact absurd ⟨hxa, hee, hnf⟩ hbfail
              · exact Or.inr ⟨x, hxbs, hxa, hee, hnf, hor⟩

theorem dupOuter_eq :
    ∀ (post pre : List EntryPath) (dups found : List (EntryPath × EntryPath)),
      (pre ++ post).Nodup →
      (∀ x y : EntryPath, ((x, y) ∈ found ↔
        ((x ∈ pre ∨ y ∈ pre) ∧ x ∈ pre ++ post ∧ y ∈ pre ++ post ∧ x ≠ y ∧
          x.entry = y.entry))) →
      (dupOuter post (pre ++ post) dups found).1 =
        dups ++ specDuplicates post := by
  intro post
  induction post with
  | nil =>
    intro pre dups found _ _
    simp [dupOuter, specDuplicates]
  | cons a post ih =>
    intro pre dups found hnd hinv
    have hL : (pre ++ [a]) ++ post = pre ++ a :: post := by simp
    have hanotpre : a ∉ pre := by
      intro h
      have := List.disjoint_of_nodup_append hnd
      exact this h (by simp)
    have hanotpost : a ∉ post := by
      have := (List.nodup_append.mp hnd).2.1
      exact (List.nodup_cons.mp this).1
    rw [dupOuter]
    obtain ⟨hd, hfmem⟩ := dupInner_eq a (pre ++ a :: post) dups found hnd
    have hfilter : (pre ++ a :: post).filter (fun b =>
          b ≠ a ∧ a.entry = b.entry ∧ (a, b) ∉ found) =
        post.filter (fun b => a.entry = b.entry) := by
      rw [List.filter_append]
      have hpre : pre.filter (fun b =>
          b ≠ a ∧ a.entry = b.entry ∧ (a, b) ∉ found) = [] := by
        rw [List.filter_eq_nil_iff]
        intro x hx
        simp only [decide_eq_true_eq]
        rintro ⟨hxa, hee, hnf⟩
        apply hnf
        rw [hinv a x]
        exact ⟨Or.inr hx, by simp, List.mem_append_left _ hx,
          fun h => hxa h.symm, hee⟩
      rw [hpre, List.nil_append, List.filter_cons_of_neg (by simp)]
      apply List.filter_congr
      intro b hb
      have hba : b ≠ a := fun h => hanotpost (h ▸ hb)
      have hbnotpre : b ∉ pre := by
        intro h
        have := List.disjoint_of_nodup_append hnd
        exact this h (by simp [hb])
      have hnf : (a, b) ∉ found := by
        rw [hinv a b]
        rintro ⟨hpp, -⟩
        rcases hpp with h | h
        · exact hanotpre h
        · exact hbnotpre h
      rcases hdec : decide (a.entry = b.entry) with _ | _
      · simp only [decide_eq_false_iff_not] at hdec
        simp [hdec]
      · simp only [decide_eq_true_eq] at hdec
        simp [hdec, hba, hnf]
    have hinv2 : ∀ x y : EntryPath,
        ((x, y) ∈ (dupInner a (pre ++ a :: post) dups found).2 ↔
          ((x ∈ pre ++ [a] ∨ y ∈ pre ++ [a]) ∧ x ∈ (pre ++ [a]) ++ post ∧
            y ∈ (pre ++ [a]) ++ post ∧ x ≠ y ∧ x.entry = y.entry)) := by
      intro x y
      rw [hfmem (x, y), hL]
      constructor
      · rintro (hf | ⟨b, hb, hba, hee, hnf, hor⟩)
        · obtain ⟨hp, hxL, hyL, hxy, he⟩ := (hinv x y).mp hf
          refine ⟨?_, hxL, hyL, hxy, he⟩
          rcases hp with h | h
          · exact Or.inl (List.mem_append_left _ h)
          · exact Or.inr (List.mem_append_left _ h)
        · rcases hor with h | h
          · obtain ⟨hx, hy⟩ := Prod.mk.injEq .. ▸ h
            subst hx
            subst hy
            exact ⟨Or.inl (by simp), by simp, hb, fun h2 => hba h2.symm, hee⟩
          · obtain ⟨hx, hy⟩ := Prod.mk.injEq .. ▸ h
            subst hx
            subst hy
            exact ⟨Or.inr (by simp), hb, by simp, hba, hee.symm⟩
      · rintro ⟨hp, hxL, hyL, hxy, he⟩
        by_cases hxpre : x ∈ pre
        · exact Or.inl ((hinv x y).mpr ⟨Or.inl hxpre, hxL, hyL, hxy, he⟩)
        by_cases hypre : y ∈ pre
        · exact Or.inl ((hinv x y).mpr ⟨Or.inr hypre, hxL, hyL, hxy, he⟩)
        have hxa_or : x = a ∨ y = a := by
          rcases hp with h | h
          · rcases List.mem_append.mp h with h2 | h2
            · exact absurd h2 hxpre
            · exact Or.inl (by simpa using h2)
          · rcases List.mem_append.mp h with h2 | h2
            · exact absurd h2 hypre
            · exact Or.inr (by simpa using h2)
        rcases hxa_or with hxa | hya
        · subst hxa
          refine Or.inr ⟨y, hyL, ?_, he, ?_, Or.inl rfl⟩
          · intro h
            exact hxy h.symm
          · rw [hinv x y]
            rintro ⟨hpp, -⟩
            rcases hpp with h | h
            · exact hanotpre h
            · exact hypre h
        · subst hya
          refine Or.inr ⟨x, hxL, ?_, he.symm, ?_, Or.inr rfl⟩
          · intro h
            exact hxy h
          · rw [hinv y x]
            rintro ⟨hpp, -⟩
            rcases hpp with h | h
            · exact hanotpre h
            · exact hxpre h
    have hnd2 : ((pre ++ [a]) ++ post).Nodup := by
      rw [hL]
      exact hnd
    have key := ih (pre ++ [a]) (dupInner a (pre ++ a :: post) dups found).1
      (dupInner a (pre ++ a :: post) dups found).2 hnd2 hinv2
    rw [hL] at key
    show (dupOuter post (pre ++ a :: post)
      (dupInner a (pre ++ a :: post) dups found).1
      (dupInner a (pre ++ a :: post) dups found).2).1 = _
    rw [key, hd, hfilter, specDuplicates]
    simp [List.append_assoc]

/-- `find_duplicates_across_releases` computes exactly the
specification-side duplicate list when the yielded paths are pairwise
distinct. -/
theorem find_duplicates_eq_spec (cl : Changelog)
    (hnd : (Changelog.entries cl).Nodup) :
    Changelog.find_duplicates_across_releases cl =
      specDuplicates (Changelog.entries cl) := by
  rw [Changelog.find_duplicates_across_releases]
  have := dupOuter_eq (Changelog.entries cl) [] [] []
    (by simpa using hnd) (by simp)
  simpa using this

theorem specDuplicates_mem :
    ∀ (L : List EntryPath) (p q : EntryPath),
      ((p, q) ∈ specDuplicates L ↔
        ∃ (i j : Nat) (hi : i < L.length) (hj : j < L.length),
          i < j ∧ L.get ⟨i, hi⟩ = p ∧ L.get ⟨j, hj⟩ = q ∧
            p.entry = q.entry) := by
  intro L
  induction L with
  | nil =>
    intro p q
    simp [specDuplicates]
  | cons a rest ih =>
    intro p q
    rw [specDuplicates]
    constructor
    · intro h
      rcases List.mem_append.mp h with h | h
      · obtain ⟨b, hb, heq⟩ := List.mem_map.mp h
        obtain ⟨hbr, hcond⟩ := List.mem_filter.mp hb
        simp only [decide_eq_true_eq] at hcond
        simp only [Prod.mk.injEq] at heq
        obtain ⟨hpa, hqb⟩ := heq
        subst hpa
        subst hqb
        obtain ⟨n, hn⟩ := List.mem_iff_get.mp hbr
        exact ⟨0, n.1 + 1, Nat.succ_pos _, Nat.succ_lt_succ n.2,
          Nat.succ_pos _, rfl, hn, hcond⟩
      · obtain ⟨i, j, hi, hj, hij, hip, hjq, he⟩ := (ih p q).mp h
        exact ⟨i + 1, j + 1, Nat.succ_lt_succ hi, Nat.succ_lt_succ hj,
          Nat.succ_lt_succ hij, hip, hjq, he⟩
    · rintro ⟨i, j, hi, hj, hij, hip, hjq, he⟩
      rcases j with _ | j
      · omega
      rcases i with _ | i
      · have hpa : a = p := hip
        have hq : rest.get ⟨j, Nat.lt_of_succ_lt_succ hj⟩ = q := hjq
        subst hpa
        refine List.mem_append.mpr (Or.inl ?_)
        refine List.mem_map.mpr ⟨q, List.mem_filter.mpr ⟨?_, ?_⟩, rfl⟩
        · exact List.mem_iff_get.mpr ⟨_, hq⟩
        · simp only [decide_eq_true_eq]
          exact he
      · refine List.mem_append.mpr (Or.inr ?_)
        exact (ih p q).mpr ⟨i, j, Nat.lt_of_succ_lt_succ hi,
          Nat.lt_of_succ_lt_succ hj, Nat.lt_of_succ_lt_succ hij,
          hip, hjq, he⟩

/-- Claim C3: `find_duplicates_across_releases` reports, for every pair of
positions `i < j` in the yielded traversal whose entries' content is
identical, exactly the pair oriented `(earlier, later)` — never the
symmetric orientation — and every reported pair has identical content; in
fact the result equals the specification-side list `specDuplicates`
(each path paired with every later path of identical content).  All of
this holds *provided the yielded paths are pairwise distinct as values*
(the `path_a == path_b` guard and the `HashSet` compare path values, not
positions); without that proviso the claim fails, see the
counterexample. -/
theorem C3_duplicate_detection (cl : Changelog)
    (hnd : (Changelog.entries cl).Nodup) :
    Changelog.find_duplicates_across_releases cl =
      specDuplicates (Changelog.entries cl)
    ∧ (∀ p q : EntryPath,
        (p, q) ∈ Changelog.find_duplicates_across_releases cl →
          p.entry = q.entry ∧ p ≠ q)
    ∧ (∀ i j (hi : i < (Changelog.entries cl).length)
          (hj : j < (Changelog.entries cl).length), i < j →
        ((Changelog.entries cl).get ⟨i, hi⟩).entry =
            ((Changelog.entries cl).get ⟨j, hj⟩).entry →
        ((Changelog.entries cl).get ⟨i, hi⟩,
            (Changelog.entries cl).get ⟨j, hj⟩) ∈
            Changelog.find_duplicates_across_releases cl
          ∧ ((Changelog.entries cl).get ⟨j, hj⟩,
              (Changelog.entries cl).get ⟨i, hi⟩) ∉
              Changelog.find_duplicates_across_releases cl) := by
  have heq := find_duplicates_eq_spec cl hnd
  have getinj : ∀ (i j : Nat) (hi : i < (Changelog.entries cl).length)
      (hj : j < (Changelog.entries cl).length),
      (Changelog.entries cl).get ⟨i, hi⟩ =
        (Changelog.entries cl).get ⟨j, hj⟩ → i = j := by
    intro i j hi hj h
    exact (List.Nodup.getElem_inj_iff hnd).mp h
  refine ⟨heq, ?_, ?_⟩
  · intro p q hpq
    rw [heq] at hpq
    obtain ⟨i, j, hi, hj, hij, hip, hjq, he⟩ :=
      (specDuplicates_mem _ p q).mp hpq
    refine ⟨he, ?_⟩
    intro hpq2
    subst hip
    subst hjq
    exact absurd (getinj i j hi hj hpq2) (Nat.ne_of_lt hij)
  · intro i j hi hj hij he
    rw [heq]
    refine ⟨(specDuplicates_mem _ _ _).mpr
      ⟨i, j, hi, hj, hij, rfl, rfl, he⟩, ?_⟩
    intro hmem
    obtain ⟨i2, j2, hi2, hj2, hij2, hip2, hjq2, he2⟩ :=
      (specDuplicates_mem _ _ _).mp hmem
    have h1 : i2 = j := getinj i2 j hi2 hj hip2
    have h2 : j2 = i := getinj j2 i hj2 hi hjq2
    omega

/-- The single path value that both traversal positions of `clDup`
address. -/
def pathDup : EntryPath :=
  ⟨clDup, .released relDup
    ⟨relDup.changes, ⟨"bbb", "BBB", [⟨1, "- A"⟩], []⟩, .general ⟨1, "- A"⟩⟩⟩

/-- Claim C3, counterexample: in `clDup` (the same release value held
twice) the traversal yields two positions — indices 0 and 1 of
`entries` — whose entries' content is identical, yet
`find_duplicates_across_releases` reports *no* pair at all (the claim
demands exactly one): the `path_a == path_b` skip compares path values,
which coincide here although the positions are distinct. -/
theorem C3_counterexample :
    Changelog.entries clDup = [pathDup, pathDup]
    ∧ Changelog.find_duplicates_across_releases clDup = [] := by
  have hE : Changelog.entries clDup = [pathDup, pathDup] := by
    rw [Changelog.entries_eq]
    simp [clDup, relDup, pathDup, releasesStructItems, changeSetStructItems,
      sectionStructItems, compsStruct, changeSetIterAdmits, sectionAdmits]
  refine ⟨hE, ?_⟩
  rw [Changelog.find_duplicates_across_releases, hE]
  decide

/-- A second release, value-distinct from `relDup`, holding an entry with
the same content. -/
def relDupB : Release :=
  ⟨"v0.2.0", ⟨0, 2, 0, []⟩, none,
    ⟨none, [⟨"bbb", "BBB", [⟨1, "- A"⟩], []⟩]⟩⟩

/-- A changelog with two value-distinct releases each holding an entry of
identical content: its yielded paths are pairwise distinct. -/
def clDupAcross : Changelog :=
  ⟨none, [relDup, relDupB], none, none⟩

/-- The path of the duplicated entry inside the first release of
`clDupAcross`. -/
def pathDupA : EntryPath :=
  ⟨clDupAcross, .released relDup
    ⟨relDup.changes, ⟨"bbb", "BBB", [⟨1, "- A"⟩], []⟩, .general ⟨1, "- A"⟩⟩⟩

/-- The path of the duplicated entry inside the second release of
`clDupAcross`. -/
def pathDupB : EntryPath :=
  ⟨clDupAcross, .released relDupB
    ⟨relDupB.changes, ⟨"bbb", "BBB", [⟨1, "- A"⟩], []⟩, .general ⟨1, "- A"⟩⟩⟩

/-- Witness for `C3_duplicate_detection`: `clDupAcross` yields pairwise
distinct paths, and the computed duplicate list equals the
specification-side list (here the single pair `(pathDupA, pathDupB)`). -/
theorem C3_duplicate_detection_witness :
    (Changelog.entries clDupAcross).Nodup
    ∧ Changelog.find_duplicates_across_releases clDupAcross =
        specDuplicates (Changelog.entries clDupAcross) := by
  have hE : Changelog.entries clDupAcross = [pathDupA, pathDupB] := by
    rw [Changelog.entries_eq]
    simp [clDupAcross, relDup, relDupB, pathDupA, pathDupB,
      releasesStructItems, changeSetStructItems, sectionStructItems,
      compsStruct, changeSetIterAdmits, sectionAdmits]
  have hnd : (Changelog.entries clDupAcross).Nodup := by
    rw [hE]
    decide
  exact ⟨hnd, (C3_duplicate_detection clDupAcross hnd).1⟩

end Unclog
